import Mathlib

/-!
# Verification of the AI-doc2md batch document pipeline

A shallow embedding of the two scripts of the repository,
`scripts/convert_any_to_md.py` and `scripts/split_md_by_heading.py`, together
with theorems settling the frozen claims about them.

Conventions:
* Text is modelled as `List Char` (Python `str`); `String` wrappers are
  provided at the boundary.
* Python's Unicode-aware `\s`, `str.strip()` and `str.lower()` are modelled on
  their ASCII fragment, which covers the markdown inputs the scripts process.
* Filesystem effects are modelled as explicit event lists (`FsEvent`), and
  fallible external steps (converters, file reads) as explicit
  success/error values, mirroring Python exceptions.
* Modification times are modelled as natural numbers (only their order is
  ever consulted by the code).
-/

namespace Doc2Md

/-- Whitespace as recognised by Python's `\s` and `str.strip()`
(ASCII fragment). -/
def isSpace (c : Char) : Bool :=
  c == ' ' || c == '\t' || c == '\n' || c == '\r' || c == '\x0B' || c == '\x0C'

/-- Python `str.strip()`: remove leading and trailing whitespace. -/
def stripChars (cs : List Char) : List Char :=
  ((cs.dropWhile isSpace).reverse.dropWhile isSpace).reverse

/-- The characters that the pattern `INVALID_CHARS = re.compile(r"[^A-Za-z0-9._-]+")`
of `split_md_by_heading.py` leaves alone. -/
def isValidFileChar (c : Char) : Bool :=
  (65 ≤ c.toNat && c.toNat ≤ 90) || (97 ≤ c.toNat && c.toNat ≤ 122) ||
    (48 ≤ c.toNat && c.toNat ≤ 57) || c == '.' || c == '_' || c == '-'

/-- Python `str.lower()` (ASCII fragment): map `A`–`Z` to `a`–`z`. -/
def pyLower (c : Char) : Char :=
  if 65 ≤ c.toNat && c.toNat ≤ 90 then Char.ofNat (c.toNat + 32) else c

/-- `INVALID_CHARS.sub("_", s)`: replace every maximal run of invalid
characters by one underscore.  The boolean records whether the previous
character belonged to an invalid run (whose underscore is already emitted). -/
def subInvalidAux : Bool → List Char → List Char
  | _, [] => []
  | prev, c :: cs =>
    if isValidFileChar c then c :: subInvalidAux false cs
    else if prev then subInvalidAux true cs
    else '_' :: subInvalidAux true cs

/-- `INVALID_CHARS.sub("_", s)`. -/
def subInvalid (cs : List Char) : List Char := subInvalidAux false cs

/-- Python `str.strip("_")`. -/
def stripUnderscores (cs : List Char) : List Char :=
  ((cs.dropWhile (· == '_')).reverse.dropWhile (· == '_')).reverse

/-- `sanitize_filename` of `split_md_by_heading.py` with explicit `max_len`:
`clean = INVALID_CHARS.sub("_", name.lower()).strip("_")`;
`return clean[:max_len] or "untitled"`. -/
def sanitize_filename_len (name : List Char) (max_len : Nat) : List Char :=
  let clean := stripUnderscores (subInvalid (name.map pyLower))
  if (clean.take max_len).isEmpty then "untitled".data else clean.take max_len

/-- `sanitize_filename` at its default `max_len = 80`. -/
def sanitize_filename (name : List Char) : List Char :=
  sanitize_filename_len name 80

/-!
## The heading matcher

`split_markdown` compiles `rf"^({'#' * level})\s+(.+)$"` with `re.MULTILINE`.
`matchHeading` models one attempt of this pattern anchored at the start of the
suffix `cs` of the text (the caller checks the `^` anchor).  `\s+` is greedy
— and `\s` also matches a newline, so the run may cross line ends — but
backtracks just enough for `(.+)` to match at least one non-newline
character; `(.+)` then extends to the next newline or the end of the text,
where `$` holds.  Returns `(length of group 0, group 2)`.
-/

def matchHeading (level : Nat) (cs : List Char) : Option (Nat × List Char) :=
  if cs.take level == List.replicate level '#' then
    let rest := cs.drop level
    let w := (rest.takeWhile isSpace).length
    let s := if w < rest.length then w
             else w - ((rest.reverse.takeWhile (· == '\n')).length + 1)
    if 1 ≤ s then
      let title := (rest.drop s).takeWhile (· != '\n')
      some (level + s + title.length, title)
    else none
  else none

/-- The scanning loop of `split_markdown`: `finditer` fused with the slicing
`body = text[last_pos : m.start()]`.  `atStart` tracks whether the position is
at the start of the text or just after a newline (the `^` anchor); `chunkRev`
holds, reversed, the characters accumulated since `last_pos`; `title` is the
pending `last_title`.  On a match the pending region is flushed, `last_title`
becomes the stripped group 2, and scanning resumes at the match end (which
never sits right after a newline, since group 2 is free of newlines).  `fuel`
bounds the recursion; every step consumes at least one character. -/
def scanAux (level : Nat) : Nat → List Char → Bool → List Char → List Char →
    List (List Char × List Char)
  | 0, _, _, title, chunkRev => [(title, chunkRev.reverse)]
  | fuel + 1, cs, atStart, title, chunkRev =>
    match cs with
    | [] => [(title, chunkRev.reverse)]
    | c :: cs' =>
      match (if atStart then matchHeading level (c :: cs') else none) with
      | some (mlen, t) =>
        (title, chunkRev.reverse) ::
          scanAux level fuel ((c :: cs').drop mlen) false (stripChars t)
            ((c :: cs').take mlen).reverse
      | none => scanAux level fuel cs' (c == '\n') title (c :: chunkRev)

/-- All `(last_title, raw region)` slices of the text, in order: region 0 runs
from position 0 to the first match start (the prologue, possibly empty), each
later region from one match start to the next match start or the text end. -/
def rawParts (level : Nat) (cs : List Char) : List (List Char × List Char) :=
  scanAux level cs.length cs true "prologue".data []

/-- `split_markdown` of `split_md_by_heading.py` on a character list: strip
each region and keep the non-empty ones (`if body.strip(): parts.append`),
then prepend a synthesized heading line `f"{'#' * level} {title}\n\n"` to any
kept part whose text does not already start with `#`. -/
def splitMarkdownL (level : Nat) (cs : List Char) : List (List Char × List Char) :=
  let parts := (rawParts level cs).filterMap fun tc =>
    let b := stripChars tc.2
    if b.isEmpty then none else some (tc.1, b)
  parts.map fun tc =>
    if tc.2.head? == some '#' then tc
    else (tc.1, List.replicate level '#' ++ ' ' :: tc.1 ++ '\n' :: '\n' :: tc.2)

/-- `split_markdown` on strings: the list of `(title, chapter_text)` pairs. -/
def split_markdown (text : String) (level : Nat) : List (String × String) :=
  (splitMarkdownL level text.data).map fun tc => (⟨tc.1⟩, ⟨tc.2⟩)

/-! ## Filesystem effects -/

/-- Paths as component lists (`pathlib` paths below a common root). -/
abbrev Path := List String

/-- The filesystem effects the scripts perform, in program order.
`writeFile` covers both `Path.write_text` and `shutil.copy` (a copy writes
the source's content at the destination path). -/
inductive FsEvent where
  | mkdirp (p : Path)
  | rmtreeDir (p : Path)
  | writeFile (p : Path) (content : List Char)
  deriving DecidableEq

/-- File contents after one event: `mkdirp` leaves file contents unchanged,
`rmtreeDir` removes every file at or below the directory, `writeFile`
replaces one file. -/
def applyEvent (fs : Path → Option (List Char)) : FsEvent → Path → Option (List Char)
  | .mkdirp _, q => fs q
  | .rmtreeDir p, q => if p.isPrefixOf q then none else fs q
  | .writeFile p c, q => if q = p then some c else fs q

/-- File contents after a sequence of events. -/
def runEvents (fs : Path → Option (List Char)) (evs : List FsEvent) :
    Path → Option (List Char) :=
  evs.foldl applyEvent fs

/-- The empty destination tree. -/
def emptyFs : Path → Option (List Char) := fun _ => none

/-- Whether an event writes a file (`writeFile`; directory bookkeeping events
are not file writes). -/
def FsEvent.isFileWrite : FsEvent → Bool
  | .writeFile _ _ => true
  | _ => false

/-- `es` is an interleaving of the per-item event sequences `ls`: each item's
events appear in `es` in their program order, arbitrarily interleaved across
items — exactly the schedules realisable by a pool of parallel workers
processing the items. -/
inductive Merge : List (List FsEvent) → List FsEvent → Prop where
  | nil {ls} : (∀ l ∈ ls, l = []) → Merge ls []
  | step {ls es} (i : Nat) (e : FsEvent) (tl : List FsEvent) :
      ls[i]? = some (e :: tl) → Merge (ls.set i tl) es → Merge ls (e :: es)

/-- Footprint disjointness of two events: no file is touched by both.
`mkdirp` has an empty footprint on file contents. -/
def evDisjoint : FsEvent → FsEvent → Bool
  | .mkdirp _, _ => true
  | _, .mkdirp _ => true
  | .writeFile p _, .writeFile q _ => p != q
  | .writeFile p _, .rmtreeDir r => !(r.isPrefixOf p)
  | .rmtreeDir r, .writeFile p _ => !(r.isPrefixOf p)
  | .rmtreeDir r, .rmtreeDir r' => !(r.isPrefixOf r') && !(r'.isPrefixOf r)

/-- Pairwise footprint disjointness of per-item event sequences. -/
def ItemsDisjoint (ls : List (List FsEvent)) : Prop :=
  ls.Pairwise fun l₁ l₂ => ∀ e₁ ∈ l₁, ∀ e₂ ∈ l₂, evDisjoint e₁ e₂ = true

/-! ## Chapter file naming and `_write_chapters` -/

/-- Decimal digits of `n`, most significant first (`fuel` bounds the digit
count). -/
def natDigitsAux : Nat → Nat → List Char
  | 0, _ => []
  | fuel + 1, n =>
    if n < 10 then [Char.ofNat (48 + n)]
    else natDigitsAux fuel (n / 10) ++ [Char.ofNat (48 + n % 10)]

/-- Decimal rendering of a natural number. -/
def natDigits (n : Nat) : List Char := natDigitsAux (n + 1) n

/-- Python `f"{n:02d}"`: decimal digits, left-padded with `0` to width 2. -/
def pad2 (n : Nat) : List Char :=
  if n < 10 then '0' :: natDigits n else natDigits n

/-- `f"ch{idx:02d}_{sanitize_filename(title)}.md"`. -/
def chapterFilename (idx : Nat) (title : List Char) : List Char :=
  'c' :: 'h' :: (pad2 idx ++ '_' :: (sanitize_filename title ++ ".md".data))

/-- `pathlib.PurePath.with_suffix` on one path component: replace the part
from the last dot — when that dot exists and is not the first character — by
`suf`, else append `suf`. -/
def withSuffix (name : List Char) (suf : List Char) : List Char :=
  let i := (name.reverse.takeWhile (· != '.')).length
  if i < name.length && !(name.length - i - 1 == 0) then
    name.take (name.length - i - 1) ++ suf
  else name ++ suf

/-- `_write_chapters` of `split_md_by_heading.py` as its effect list: with
`force`, an existing book directory is first deleted; the book directory is
then created (also under `dry_run`); unless `dry_run`, chapter `idx` is
written to `ch{idx:02d}_{sanitize_filename(title)}.md` with a trailing
newline appended to its content. -/
def write_chapters (book_dir : Path) (chapters : List (List Char × List Char))
    (force dry_run book_dir_exists : Bool) : List FsEvent :=
  (if force && book_dir_exists then [FsEvent.rmtreeDir book_dir] else [])
    ++ [FsEvent.mkdirp book_dir]
    ++ (if dry_run then []
        else chapters.enum.map fun ic =>
          FsEvent.writeFile (book_dir ++ [⟨chapterFilename ic.1 ic.2.1⟩])
            (ic.2.2 ++ ['\n']))

/-! ## `process_file` of `split_md_by_heading.py` -/

/-- The `--no-split-action` choices. -/
inductive NoSplitAction where
  | skip | copy
  deriving DecidableEq

/-- What `process_file` of `split_md_by_heading.py` does with one item
(the function itself returns `None`; this records the branch taken). -/
inductive SplitOutcome where
  | copiedNoHeadings
  | skippedNoHeadings
  | processed (chapters : Nat)
  | errorLogged (err : List Char)
  deriving DecidableEq

/-- `process_file` of `split_md_by_heading.py`.  `stem` is the source file's
stem and `content` the text `read_text` returns when reading succeeds;
`readError = some e` models an exception raised while reading the source (a
failure of the item's strategy before any write): the surrounding
`try/except` catches it and only logs — no sidecar artifact is written and
no failure value is returned.  Returns the filesystem effects and the branch
taken. -/
def split_process_file (stem : String) (content : List Char) (dst_root : Path)
    (level : Nat) (force : Bool) (act : NoSplitAction) (dry_run : Bool)
    (book_dir_exists : Bool) (readError : Option (List Char)) :
    List FsEvent × SplitOutcome :=
  match readError with
  | some e => ([], .errorLogged e)
  | none =>
    let book_dir : Path := dst_root ++ [stem]
    let chapters := splitMarkdownL level content
    if chapters.length ≤ 1 then
      match act with
      | .copy =>
        if dry_run then ([], .copiedNoHeadings)
        else ([FsEvent.mkdirp dst_root,
               FsEvent.writeFile (dst_root ++ [⟨withSuffix stem.data ".md".data⟩])
                 content],
              .copiedNoHeadings)
      | .skip => ([], .skippedNoHeadings)
    else (write_chapters book_dir chapters force dry_run book_dir_exists,
          .processed chapters.length)

/-! ## `process_file` of `convert_any_to_md.py` -/

/-- The staleness test on line 132 of `convert_any_to_md.py`:
`not force and dst_path.exists() and dst_path.stat().st_mtime > src_path.stat().st_mtime`
— the item is skipped exactly when this holds. -/
def staleSkip (force dstExists : Bool) (srcMtime dstMtime : Nat) : Bool :=
  !force && dstExists && decide (srcMtime < dstMtime)

/-- The return value of `process_file` of `convert_any_to_md.py`
(`None`, `None`, the success message, or the `ERROR` message). -/
inductive ConvOutcome where
  | skippedUpToDate
  | skippedNoConverter
  | converted
  | failed (err : List Char)
  deriving DecidableEq

/-- The sidecar path component: `dst_path.with_suffix(".error.txt")` applied
to the destination file name `relName` with suffix replaced by `.md`. -/
def conv_error_sidecar (relName : List Char) : List Char :=
  withSuffix (withSuffix relName ".md".data) ".error.txt".data

/-- The sidecar content: `f"Failed to convert {src_path}:\n\n{e}"`. -/
def conv_error_text (src err : List Char) : List Char :=
  "Failed to convert ".data ++ (src ++ (":\n\n".data ++ err))

/-- `process_file` of `convert_any_to_md.py`.  `src` is the printable source
path, `relDirs`/`relName` the item's path relative to the source root,
`extKnown` whether `CONVERTERS` has the item's (lower-cased) extension, and
`convert` the outcome of the external converter: `.ok out` means it produced
`out` at the destination, `.error e` an exception with message `e`.  The
`try/except` turns any converter exception into a `failed` return value
after writing the `.error.txt` sidecar next to the intended destination. -/
def conv_process_file (src : List Char) (relDirs : List String)
    (relName : List Char) (dst_root : Path) (force dstExists : Bool)
    (srcMtime dstMtime : Nat) (extKnown : Bool)
    (convert : Except (List Char) (List Char)) : List FsEvent × ConvOutcome :=
  let dst_path : Path := dst_root ++ relDirs ++ [⟨withSuffix relName ".md".data⟩]
  if staleSkip force dstExists srcMtime dstMtime then ([], .skippedUpToDate)
  else
    let ev0 := [FsEvent.mkdirp (dst_root ++ relDirs)]
    if !extKnown then (ev0, .skippedNoConverter)
    else
      match convert with
      | .ok out => (ev0 ++ [FsEvent.writeFile dst_path out], .converted)
      | .error e =>
        (ev0 ++ [FsEvent.writeFile (dst_root ++ relDirs ++ [⟨conv_error_sidecar relName⟩])
            (conv_error_text src e)],
         .failed e)

/-! ## Lexicographic order on filenames -/

/-- Strict lexicographic order on character lists (code-point order) — the
order in which a directory listing sorts the generated chapter filenames. -/
def lexLt : List Char → List Char → Bool
  | _, [] => false
  | [], _ :: _ => true
  | a :: as, b :: bs =>
    if a.toNat < b.toNat then true
    else if b.toNat < a.toNat then false
    else lexLt as bs

/-- The character set of sanitized names as the specification describes it:
lowercase ASCII letters, digits, dot, underscore, dash. -/
def isLowerValid (c : Char) : Bool :=
  (97 ≤ c.toNat && c.toNat ≤ 122) || (48 ≤ c.toNat && c.toNat ≤ 57) ||
    c == '.' || c == '_' || c == '-'

/-! ## Supporting lemmas -/

theorem toNat_ofNat_of_le {n : Nat} (h : n ≤ 122) : (Char.ofNat n).toNat = n := by
  have hv : n.isValidChar := Or.inl (by omega)
  rw [Char.ofNat, dif_pos hv]
  rfl

theorem pyLower_not_upper (c : Char) :
    ¬ (65 ≤ (pyLower c).toNat ∧ (pyLower c).toNat ≤ 90) := by
  unfold pyLower
  by_cases h : (65 ≤ c.toNat && c.toNat ≤ 90) = true
  · rw [if_pos h]
    simp only [Bool.and_eq_true, decide_eq_true_eq] at h
    rw [toNat_ofNat_of_le (by omega)]
    omega
  · rw [if_neg h]
    simp only [Bool.and_eq_true, decide_eq_true_eq, not_and, not_le] at h
    omega

theorem subInvalidAux_lowerValid (cs : List Char)
    (hcs : ∀ c ∈ cs, ¬ (65 ≤ c.toNat ∧ c.toNat ≤ 90)) :
    ∀ flag, ∀ c ∈ subInvalidAux flag cs, isLowerValid c = true := by
  induction cs with
  | nil => intro flag c hc; simp [subInvalidAux] at hc
  | cons a as ih =>
    intro flag c hc
    have ha := hcs a (List.mem_cons_self a as)
    have ih' := ih (fun c hc => hcs c (List.mem_cons_of_mem a hc))
    unfold subInvalidAux at hc
    by_cases hv : isValidFileChar a = true
    · rw [if_pos hv] at hc
      rcases List.mem_cons.mp hc with h | h
      · subst h
        unfold isValidFileChar at hv
        unfold isLowerValid
        simp only [Bool.or_eq_true, Bool.and_eq_true, decide_eq_true_eq,
          beq_iff_eq] at hv ⊢
        tauto
      · exact ih' false c h
    · rw [if_neg hv] at hc
      by_cases hp : flag = true
      · rw [hp, if_pos rfl] at hc
        exact ih' true c hc
      · rw [if_neg hp] at hc
        rcases List.mem_cons.mp hc with h | h
        · subst h; decide
        · exact ih' true c h

theorem mem_of_mem_dropWhileP {p : Char → Bool} {l : List Char} {c : Char}
    (h : c ∈ l.dropWhile p) : c ∈ l :=
  List.Sublist.mem h (List.dropWhile_sublist p)

theorem mem_of_mem_stripUnderscores {cs : List Char} {c : Char}
    (h : c ∈ stripUnderscores cs) : c ∈ cs := by
  unfold stripUnderscores at h
  rw [List.mem_reverse] at h
  have h1 := mem_of_mem_dropWhileP h
  rw [List.mem_reverse] at h1
  exact mem_of_mem_dropWhileP h1

/-!
## Claim theorems

Each claim of the frozen list is settled below.  A claim's theorem is a single
theorem; corrected claims additionally have a closed counterexample theorem
refuting the claim as stated, and theorems with hypotheses have a closed
witness instantiating them.
-/

/-- C1 (counterexample). The claim states that the staleness gate processes an
item iff `force`, or the destination is missing, or the source's modification
time is strictly greater — in particular that equal timestamps are skipped.
On the code (`convert_any_to_md.py` line 132) the skip test is
`dst_mtime > src_mtime`, so with `force = false`, an existing destination
and equal timestamps (both 5) the item is NOT skipped, refuting the claimed
equivalence. -/
theorem claim_C1_cex :
    ¬ (∀ (force dstExists : Bool) (srcMtime dstMtime : Nat),
        staleSkip force dstExists srcMtime dstMtime = false ↔
          (force = true ∨ dstExists = false ∨ dstMtime < srcMtime)) := by
  intro h
  exact absurd ((h false true 5 5).mp (by decide)) (by decide)

/-- C1 (amended). The staleness gate processes the item iff `force` is true,
or the destination does not exist, or the destination's modification time is
at most the source's: ties (equal timestamps) are REPROCESSED, not skipped —
the destination is considered fresh only when strictly newer. -/
theorem claim_C1 :
    ∀ (force dstExists : Bool) (srcMtime dstMtime : Nat),
      staleSkip force dstExists srcMtime dstMtime = false ↔
        (force = true ∨ dstExists = false ∨ dstMtime ≤ srcMtime) := by
  intro f d s t
  cases f <;> cases d <;> simp [staleSkip]

/-- C2 (counterexample). Splitting `"Intro text\n# A\nbody1\n# B\nbody2"` at
heading level 1 does NOT return `("prologue", "Intro text")` as its first
segment: the refinement loop of `split_markdown` prepends a synthesized
heading line to the prologue because it does not start with `#`. -/
theorem claim_C2_cex :
    split_markdown "Intro text\n# A\nbody1\n# B\nbody2" 1 ≠
      [("prologue", "Intro text"), ("A", "# A\nbody1"), ("B", "# B\nbody2")] := by
  decide

/-- C2 (amended). Splitting `"Intro text\n# A\nbody1\n# B\nbody2"` at heading
level 1 returns exactly three segments in document order; the prologue's body
carries the synthesized heading line `"# prologue\n\n"`, the other two are as
claimed. -/
theorem claim_C2 :
    split_markdown "Intro text\n# A\nbody1\n# B\nbody2" 1 =
      [("prologue", "# prologue\n\nIntro text"), ("A", "# A\nbody1"),
        ("B", "# B\nbody2")] := by
  decide

/-- C4 (counterexample). In the splitting pipeline
(`split_md_by_heading.py`), an item whose strategy raises is only logged: at
this concrete input the `except` branch performs NO filesystem write at all —
in particular no sidecar diagnostic file — and returns no failure artifact
path, refuting the claim that every failing item writes a sidecar. -/
theorem claim_C4_cex :
    (split_process_file "x" [] ["dst"] 1 false NoSplitAction.copy false false
        (some "boom".data)).1 = [] ∧
    (split_process_file "x" [] ["dst"] 1 false NoSplitAction.copy false false
        (some "boom".data)).2 = SplitOutcome.errorLogged "boom".data := by
  decide

/-- C4 (amended). Per-item errors are caught at the item boundary and never
propagate (both embedded `process_file` functions are total, returning an
outcome for every error).  In the conversion pipeline a failing transform
yields a `failed` outcome after writing the `.error.txt` sidecar next to the
intended destination, containing the source path and the error text; in the
splitting pipeline the error is only logged — no sidecar is written and no
failure artifact is produced. -/
theorem claim_C4 :
    (∀ (src : List Char) (relDirs : List String) (relName : List Char)
        (dst_root : Path) (force dstExists : Bool) (srcMtime dstMtime : Nat)
        (e : List Char),
        staleSkip force dstExists srcMtime dstMtime = false →
        conv_process_file src relDirs relName dst_root force dstExists srcMtime
            dstMtime true (.error e) =
          ([FsEvent.mkdirp (dst_root ++ relDirs),
            FsEvent.writeFile
              (dst_root ++ relDirs ++ [⟨conv_error_sidecar relName⟩])
              (conv_error_text src e)],
            ConvOutcome.failed e)) ∧
    (∀ (stem : String) (content : List Char) (dst_root : Path) (level : Nat)
        (force : Bool) (act : NoSplitAction) (dry_run book_dir_exists : Bool)
        (e : List Char),
        split_process_file stem content dst_root level force act dry_run
            book_dir_exists (some e) = ([], SplitOutcome.errorLogged e)) := by
  constructor
  · intro src relDirs relName dst_root force dstExists srcMtime dstMtime e h
    simp [conv_process_file, h]
  · intro stem content dst_root level force act dry_run book_dir_exists e
    rfl

/-- C4 (witness): the conversion half of the amended claim instantiated at a
concrete failing item with an up-to-date check that does not skip. -/
theorem claim_C4_witness :
    conv_process_file "raw/a.pdf".data ["sub"] "a.pdf".data ["out"] false false
        3 7 true (.error "tool crashed".data) =
      ([FsEvent.mkdirp (["out"] ++ ["sub"]),
        FsEvent.writeFile
          (["out"] ++ ["sub"] ++ [⟨conv_error_sidecar "a.pdf".data⟩])
          (conv_error_text "raw/a.pdf".data "tool crashed".data)],
        ConvOutcome.failed "tool crashed".data) :=
  claim_C4.1 "raw/a.pdf".data ["sub"] "a.pdf".data ["out"] false false 3 7
    "tool crashed".data (by decide)

/-- C5 (counterexample). A dry-run item whose split yields two chapters, with
`force` set and an existing book directory, still DELETES the existing book
directory and re-CREATES it: dry-run does modify filesystem state, refuting
the claim. -/
theorem claim_C5_cex :
    (split_process_file "x" "# a\nb\n# c\nd".data ["dst"] 1 true
        NoSplitAction.skip true true none).1 =
      [FsEvent.rmtreeDir ["dst", "x"], FsEvent.mkdirp ["dst", "x"]] ∧
    (split_process_file "x" "# a\nb\n# c\nd".data ["dst"] 1 true
        NoSplitAction.skip true true none).1 ≠ [] := by
  decide

/-- C5 (amended). Under `dry_run` no destination FILE is ever written, and
the fallback and error paths perform no filesystem action at all; but when
the split yields at least two segments the book directory is still created —
and, with `force` set and the directory existing, the existing book directory
is first deleted. -/
theorem claim_C5 :
    ∀ (stem : String) (content : List Char) (dst_root : Path) (level : Nat)
      (force : Bool) (act : NoSplitAction) (book_dir_exists : Bool)
      (readError : Option (List Char)),
      (∀ e ∈ (split_process_file stem content dst_root level force act true
          book_dir_exists readError).1, e.isFileWrite = false) ∧
      (readError = none → 2 ≤ (splitMarkdownL level content).length →
        (split_process_file stem content dst_root level force act true
            book_dir_exists readError).1 =
          (if force && book_dir_exists
            then [FsEvent.rmtreeDir (dst_root ++ [stem])] else [])
            ++ [FsEvent.mkdirp (dst_root ++ [stem])]) ∧
      (readError = none → (splitMarkdownL level content).length ≤ 1 →
        (split_process_file stem content dst_root level force act true
            book_dir_exists readError).1 = []) ∧
      (∀ e, readError = some e →
        (split_process_file stem content dst_root level force act true
            book_dir_exists readError).1 = []) := by
  intro stem content dst_root level force act book_dir_exists readError
  match readError with
  | some e =>
    exact ⟨by simp [split_process_file], by simp, by simp, by
      intro e' h; simp [split_process_file]⟩
  | none =>
    by_cases hlen : (splitMarkdownL level content).length ≤ 1
    · have hevs : (split_process_file stem content dst_root level force act true
          book_dir_exists none).1 = [] := by
        cases act <;> simp [split_process_file, if_pos hlen]
      refine ⟨?_, ?_, ?_, ?_⟩
      · intro e he; rw [hevs] at he; cases he
      · intro _ h2; omega
      · intro _ _; exact hevs
      · intro e h; cases h
    · have hlen' : ¬ ((splitMarkdownL level content).length ≤ 1) := hlen
      have hevs : (split_process_file stem content dst_root level force act true
          book_dir_exists none).1 =
          (if force && book_dir_exists
            then [FsEvent.rmtreeDir (dst_root ++ [stem])] else [])
            ++ [FsEvent.mkdirp (dst_root ++ [stem])] := by
        simp [split_process_file, write_chapters, hlen']
      refine ⟨?_, ?_, ?_, ?_⟩
      · intro e he
        rw [hevs] at he
        rcases List.mem_append.mp he with h | h
        · split at h
          · rw [List.eq_of_mem_singleton h]; rfl
          · cases h
        · rw [List.eq_of_mem_singleton h]; rfl
      · intro _ _; exact hevs
      · intro _ h1; omega
      · intro e h; cases h

/-- C5 (witness): the amended claim instantiated at a concrete dry-run item
that splits into two chapters: only the book directory creation happens. -/
theorem claim_C5_witness :
    (split_process_file "x" "# a\nb\n# c\nd".data ["dst"] 1 false
        NoSplitAction.skip true false none).1 = [FsEvent.mkdirp ["dst", "x"]] := by
  have h := (claim_C5 "x" "# a\nb\n# c\nd".data ["dst"] 1 false
      NoSplitAction.skip false none).2.1 rfl (by decide)
  simpa using h

/-- C8 (confirmed). For every markdown file whose split yields at most one
segment (no real processing run, `dry_run = false`, read succeeded): with
fallback `copy` the item produces exactly one destination file write whose
content is identical to the source content (after creating the destination
root); with fallback `skip` no destination artifact is produced at all. -/
theorem claim_C8 :
    ∀ (stem : String) (content : List Char) (dst_root : Path) (level : Nat)
      (force book_dir_exists : Bool),
      (splitMarkdownL level content).length ≤ 1 →
      split_process_file stem content dst_root level force NoSplitAction.copy
          false book_dir_exists none =
        ([FsEvent.mkdirp dst_root,
          FsEvent.writeFile (dst_root ++ [⟨withSuffix stem.data ".md".data⟩])
            content],
          SplitOutcome.copiedNoHeadings) ∧
      split_process_file stem content dst_root level force NoSplitAction.skip
          false book_dir_exists none =
        ([], SplitOutcome.skippedNoHeadings) := by
  intro stem content dst_root level force book_dir_exists hlen
  constructor <;> simp [split_process_file, if_pos hlen]

/-- C8 (witness): a heading-less document; `copy` yields the single identical
copy, `skip` yields nothing. -/
theorem claim_C8_witness :
    ((splitMarkdownL 1 "just text".data).length ≤ 1) ∧
    (split_process_file "x" "just text".data ["dst"] 1 false
        NoSplitAction.copy false false none =
      ([FsEvent.mkdirp ["dst"],
        FsEvent.writeFile (["dst"] ++ [⟨withSuffix "x".data ".md".data⟩])
          "just text".data],
        SplitOutcome.copiedNoHeadings) ∧
      split_process_file "x" "just text".data ["dst"] 1 false
          NoSplitAction.skip false false none =
        ([], SplitOutcome.skippedNoHeadings)) :=
  ⟨by decide, claim_C8 "x" "just text".data ["dst"] 1 false false (by decide)⟩

/-- C10 (confirmed). For every input string, `sanitize_filename` returns a
non-empty name of length at most 80 all of whose characters are lowercase
ASCII letters, digits, `.`, `_` or `-`; and when no character of the input
survives sanitization (the cleaned text is empty) it returns `"untitled"`. -/
theorem claim_C10 :
    ∀ s : String,
      (sanitize_filename s.data).length ≤ 80 ∧
      sanitize_filename s.data ≠ [] ∧
      (∀ c ∈ sanitize_filename s.data, isLowerValid c = true) ∧
      (stripUnderscores (subInvalid (s.data.map pyLower)) = [] →
        sanitize_filename s.data = "untitled".data) := by
  intro s
  unfold sanitize_filename sanitize_filename_len
  set clean := stripUnderscores (subInvalid (s.data.map pyLower)) with hclean
  by_cases hempty : (clean.take 80).isEmpty = true
  · rw [if_pos hempty]
    refine ⟨by decide, by decide, by decide, fun _ => rfl⟩
  · rw [if_neg hempty]
    refine ⟨?_, ?_, ?_, ?_⟩
    · rw [List.length_take]; omega
    · intro h; rw [h] at hempty; exact hempty rfl
    · intro c hc
      have h1 : c ∈ clean := List.mem_of_mem_take hc
      have h2 : c ∈ subInvalid (s.data.map pyLower) :=
        mem_of_mem_stripUnderscores h1
      refine subInvalidAux_lowerValid (s.data.map pyLower) ?_ false c h2
      intro d hd
      rcases List.mem_map.mp hd with ⟨a, _, ha⟩
      rw [← ha]
      exact pyLower_not_upper a
    · intro h
      exact absurd (by rw [h]; rfl) hempty

/-- C10 (witness): the claim instantiated at a concrete input. -/
theorem claim_C10_witness :
    (sanitize_filename "My Chapter!".data).length ≤ 80 ∧
    sanitize_filename "My Chapter!".data ≠ [] ∧
    (∀ c ∈ sanitize_filename "My Chapter!".data, isLowerValid c = true) ∧
    (stripUnderscores (subInvalid ("My Chapter!".data.map pyLower)) = [] →
      sanitize_filename "My Chapter!".data = "untitled".data) :=
  claim_C10 "My Chapter!"

/-! ## Decimal rendering: supporting lemmas for the chapter numbering -/

/-- Reading a digit string back as a number. -/
def decodeDec (cs : List Char) : Nat :=
  cs.foldl (fun a c => a * 10 + (c.toNat - 48)) 0

theorem decodeDec_append_digit (xs : List Char) (c : Char) :
    decodeDec (xs ++ [c]) = decodeDec xs * 10 + (c.toNat - 48) := by
  unfold decodeDec
  rw [List.foldl_append]
  rfl

theorem decodeDec_natDigitsAux :
    ∀ fuel n, n < 10 ^ fuel → decodeDec (natDigitsAux fuel n) = n := by
  intro fuel
  induction fuel with
  | zero => intro n hn; interval_cases n; rfl
  | succ f ih =>
    intro n hn
    unfold natDigitsAux
    by_cases h : n < 10
    · rw [if_pos h]
      unfold decodeDec
      simp only [List.foldl_cons, List.foldl_nil]
      rw [toNat_ofNat_of_le (by omega)]
      omega
    · rw [if_neg h]
      rw [decodeDec_append_digit]
      have hdiv : n / 10 < 10 ^ f := by
        rw [Nat.div_lt_iff_lt_mul (by norm_num)]
        calc n < 10 ^ (f + 1) := hn
        _ = 10 ^ f * 10 := by ring
      rw [ih (n / 10) hdiv, toNat_ofNat_of_le (by omega)]
      omega

theorem decodeDec_natDigits (n : Nat) : decodeDec (natDigits n) = n := by
  unfold natDigits
  refine decodeDec_natDigitsAux (n + 1) n ?_
  calc n < 10 ^ n := Nat.lt_pow_self (by norm_num) n
  _ ≤ 10 ^ (n + 1) := Nat.pow_le_pow_right (by norm_num) (Nat.le_succ n)

theorem decodeDec_pad2 (n : Nat) : decodeDec (pad2 n) = n := by
  unfold pad2
  by_cases h : n < 10
  · rw [if_pos h]
    have : decodeDec ('0' :: natDigits n) = decodeDec (natDigits n) := by
      unfold decodeDec
      simp only [List.foldl_cons]
      rw [show 0 * 10 + ('0'.toNat - 48) = 0 from by decide]
    rw [this, decodeDec_natDigits]
  · rw [if_neg h, decodeDec_natDigits]

/-- Membership in a decimal rendering means a digit character. -/
theorem natDigitsAux_digits :
    ∀ fuel n, ∀ c ∈ natDigitsAux fuel n, 48 ≤ c.toNat ∧ c.toNat ≤ 57 := by
  intro fuel
  induction fuel with
  | zero => intro n c hc; cases hc
  | succ f ih =>
    intro n c hc
    unfold natDigitsAux at hc
    by_cases h : n < 10
    · rw [if_pos h] at hc
      rw [List.eq_of_mem_singleton hc, toNat_ofNat_of_le (by omega)]
      omega
    · rw [if_neg h] at hc
      rcases List.mem_append.mp hc with h1 | h1
      · exact ih (n / 10) c h1
      · rw [List.eq_of_mem_singleton h1, toNat_ofNat_of_le (by omega)]
        have := Nat.mod_lt n (y := 10) (by norm_num)
        omega

theorem pad2_digits (n : Nat) : ∀ c ∈ pad2 n, 48 ≤ c.toNat ∧ c.toNat ≤ 57 := by
  intro c hc
  unfold pad2 at hc
  by_cases h : n < 10
  · rw [if_pos h] at hc
    rcases List.mem_cons.mp hc with h1 | h1
    · subst h1; decide
    · exact natDigitsAux_digits (n + 1) n c h1
  · rw [if_neg h] at hc
    exact natDigitsAux_digits (n + 1) n c hc

/-- A digit run followed by `'_'` is uniquely delimited: equal concatenations
have equal digit parts and equal remainders. -/
theorem digits_underscore_delim :
    ∀ (d₁ d₂ s₁ s₂ : List Char),
      (∀ c ∈ d₁, 48 ≤ c.toNat ∧ c.toNat ≤ 57) →
      (∀ c ∈ d₂, 48 ≤ c.toNat ∧ c.toNat ≤ 57) →
      d₁ ++ '_' :: s₁ = d₂ ++ '_' :: s₂ → d₁ = d₂ ∧ s₁ = s₂ := by
  intro d₁
  induction d₁ with
  | nil =>
    intro d₂ s₁ s₂ _ hd₂ h
    cases d₂ with
    | nil => simpa using h
    | cons b bs =>
      exfalso
      have hb := hd₂ b (List.mem_cons_self b bs)
      have : '_' = b := by simpa using congrArg List.head? h
      rw [← this] at hb
      simp at hb
  | cons a as ih =>
    intro d₂ s₁ s₂ hd₁ hd₂ h
    cases d₂ with
    | nil =>
      exfalso
      have ha := hd₁ a (List.mem_cons_self a as)
      have : a = '_' := by simpa using congrArg List.head? h
      rw [this] at ha
      simp at ha
    | cons b bs =>
      simp only [List.cons_append, List.cons.injEq] at h
      obtain ⟨hab, htail⟩ := h
      obtain ⟨h1, h2⟩ := ih bs s₁ s₂
        (fun c hc => hd₁ c (List.mem_cons_of_mem a hc))
        (fun c hc => hd₂ c (List.mem_cons_of_mem b hc)) htail
      exact ⟨by rw [hab, h1], h2⟩

/-- The index prefix makes chapter filenames injective in the index, whatever
the titles are. -/
theorem chapterFilename_inj (i j : Nat) (t₁ t₂ : List Char)
    (h : chapterFilename i t₁ = chapterFilename j t₂) : i = j := by
  unfold chapterFilename at h
  simp only [List.cons.injEq, true_and] at h
  obtain ⟨hp, -⟩ :=
    digits_underscore_delim (pad2 i) (pad2 j) _ _ (pad2_digits i) (pad2_digits j) h
  calc i = decodeDec (pad2 i) := (decodeDec_pad2 i).symm
  _ = decodeDec (pad2 j) := by rw [hp]
  _ = j := decodeDec_pad2 j

theorem lexLt_cons_same (c : Char) (a b : List Char) :
    lexLt (c :: a) (c :: b) = lexLt a b := by
  show (if c.toNat < c.toNat then true
        else if c.toNat < c.toNat then false else lexLt a b) = lexLt a b
  rw [if_neg (lt_irrefl _), if_neg (lt_irrefl _)]

theorem lexLt_append_eqlen :
    ∀ (a b s t : List Char), a.length = b.length → lexLt a b = true →
      lexLt (a ++ s) (b ++ t) = true := by
  intro a
  induction a with
  | nil =>
    intro b s t hlen hab
    cases b with
    | nil => exact absurd hab (by decide)
    | cons y ys => simp at hlen
  | cons x xs ih =>
    intro b s t hlen hab
    cases b with
    | nil => simp at hlen
    | cons y ys =>
      simp only [List.length_cons, Nat.add_right_cancel_iff] at hlen
      change (if x.toNat < y.toNat then true
        else if y.toNat < x.toNat then false else lexLt xs ys) = true at hab
      rw [List.cons_append, List.cons_append]
      change (if x.toNat < y.toNat then true
        else if y.toNat < x.toNat then false else lexLt (xs ++ s) (ys ++ t)) = true
      by_cases h1 : x.toNat < y.toNat
      · rw [if_pos h1]
      · rw [if_neg h1] at hab ⊢
        by_cases h2 : y.toNat < x.toNat
        · rw [if_pos h2] at hab; exact absurd hab (by decide)
        · rw [if_neg h2] at hab ⊢
          exact ih ys s t hlen hab

set_option maxRecDepth 8192 in
theorem pad2_len2 : ∀ i < 100, (pad2 i).length = 2 := by decide

set_option maxRecDepth 8192 in
theorem pad2_lexLt : ∀ i < 100, ∀ j < 100, i < j → lexLt (pad2 i) (pad2 j) = true := by
  decide

/-- A document of `n` one-line chapters `"# t\n"`. -/
def repChapter : Nat → List Char
  | 0 => []
  | n + 1 => '#' :: ' ' :: 't' :: '\n' :: repChapter n

set_option maxRecDepth 10000 in
/-- C6 (counterexample). A split with 101 segments (indices 0–100, all titles
`"t"`): the filename at document position 99 (`ch99_t.md`) sorts
lexicographically AFTER the one at position 100 (`ch100_t.md`), so
lexicographic order does not equal document order for every number of
segments. -/
theorem claim_C6_cex :
    (splitMarkdownL 1 (repChapter 101)).length = 101 ∧
    ((splitMarkdownL 1 (repChapter 101)).map Prod.fst)[99]? = some "t".data ∧
    ((splitMarkdownL 1 (repChapter 101)).map Prod.fst)[100]? = some "t".data ∧
    lexLt (chapterFilename 99 "t".data) (chapterFilename 100 "t".data) = false := by
  decide

/-- C6 (amended). For every split with at least two segments, segment `i` is
written (in a non-dry run) to `ch{i:02d}_{sanitize_filename(title)}.md`
inside the book directory; the filenames are pairwise distinct for EVERY
number of segments (the index prefix disambiguates even equal sanitized
titles); and lexicographic order equals document order whenever the split
has at most 100 segments (beyond that, `ch100…` sorts before `ch99…`). -/
theorem claim_C6 :
    ∀ (level : Nat) (cs : List Char) (book_dir : Path)
      (force book_dir_exists : Bool),
      2 ≤ (splitMarkdownL level cs).length →
      (write_chapters book_dir (splitMarkdownL level cs) force false
          book_dir_exists =
        (if force && book_dir_exists then [FsEvent.rmtreeDir book_dir] else [])
          ++ [FsEvent.mkdirp book_dir]
          ++ (splitMarkdownL level cs).enum.map (fun ic =>
              FsEvent.writeFile (book_dir ++ [⟨chapterFilename ic.1 ic.2.1⟩])
                (ic.2.2 ++ ['\n']))) ∧
      (∀ i j t₁ t₂, i ≠ j → chapterFilename i t₁ ≠ chapterFilename j t₂) ∧
      ((splitMarkdownL level cs).length ≤ 100 →
        ∀ i j, i < j → j < (splitMarkdownL level cs).length →
          ∀ t₁ t₂, lexLt (chapterFilename i t₁) (chapterFilename j t₂) = true) := by
  intro level cs book_dir force book_dir_exists hlen
  refine ⟨by simp [write_chapters], ?_, ?_⟩
  · intro i j t₁ t₂ hij h
    exact hij (chapterFilename_inj i j t₁ t₂ h)
  · intro h100 i j hij hj t₁ t₂
    have hi100 : i < 100 := by omega
    have hj100 : j < 100 := by omega
    unfold chapterFilename
    rw [lexLt_cons_same, lexLt_cons_same]
    refine lexLt_append_eqlen _ _ _ _ ?_ (pad2_lexLt i hi100 j hj100 hij)
    rw [pad2_len2 i hi100, pad2_len2 j hj100]

/-- C6 (witness): a two-chapter split; the two generated filenames are in
lexicographic order. -/
theorem claim_C6_witness :
    lexLt (chapterFilename 0 "a".data) (chapterFilename 1 "b".data) = true :=
  (claim_C6 1 "# a\nx\n# b\ny".data ["dst"] false false (by decide)).2.2
    (by decide) 0 1 (by decide) (by decide) "a".data "b".data

/-! ## Interleaving of per-item effects: supporting lemmas -/

theorem applyEvent_comm (e₁ e₂ : FsEvent)
    (h : evDisjoint e₁ e₂ = true) (fs : Path → Option (List Char)) :
    applyEvent (applyEvent fs e₁) e₂ = applyEvent (applyEvent fs e₂) e₁ := by
  funext q
  cases e₁ with
  | mkdirp p => rfl
  | rmtreeDir r =>
    cases e₂ with
    | mkdirp p => rfl
    | rmtreeDir r' =>
      show (if r'.isPrefixOf q = true then none
            else if r.isPrefixOf q = true then none else fs q) =
        (if r.isPrefixOf q = true then none
            else if r'.isPrefixOf q = true then none else fs q)
      split_ifs <;> rfl
    | writeFile p c =>
      have hb : r.isPrefixOf p = false := by
        have h' : (!(r.isPrefixOf p)) = true := h
        simpa using h'
      show (if q = p then some c
            else if r.isPrefixOf q = true then none else fs q) =
        (if r.isPrefixOf q = true then none
            else if q = p then some c else fs q)
      split_ifs with h1 h2
      · rw [h1] at h2
        rw [h2] at hb
        cases hb
      · rfl
      · rfl
      · rfl
  | writeFile p c =>
    cases e₂ with
    | mkdirp p' => rfl
    | rmtreeDir r =>
      have hb : r.isPrefixOf p = false := by
        have h' : (!(r.isPrefixOf p)) = true := h
        simpa using h'
      show (if r.isPrefixOf q = true then none
            else if q = p then some c else fs q) =
        (if q = p then some c
            else if r.isPrefixOf q = true then none else fs q)
      split_ifs with h1 h2
      · rw [h2] at h1
        rw [h1] at hb
        cases hb
      · rfl
      · rfl
      · rfl
    | writeFile p' c' =>
      have hb : (p == p') = false := by
        have h' : (p != p') = true := h
        simpa [bne] using h'
      have hp : ¬ (p = p') := by
        intro hc
        rw [hc] at hb
        simp at hb
      show (if q = p' then some c'
            else if q = p then some c else fs q) =
        (if q = p then some c
            else if q = p' then some c' else fs q)
      split_ifs with h1 h2
      · exact absurd (h2.symm.trans h1) hp
      · rfl
      · rfl
      · rfl

/-- An event disjoint from every event of `l` moves over the whole of `l`. -/
theorem runEvents_apply_comm (e : FsEvent) :
    ∀ (l : List FsEvent) (fs : Path → Option (List Char)),
      (∀ x ∈ l, evDisjoint x e = true) →
      applyEvent (runEvents fs l) e = runEvents (applyEvent fs e) l := by
  intro l
  induction l with
  | nil => intro fs _; rfl
  | cons x xs ih =>
    intro fs h
    show applyEvent (runEvents (applyEvent fs x) xs) e =
      runEvents (applyEvent (applyEvent fs e) x) xs
    rw [ih (applyEvent fs x) (fun y hy => h y (List.mem_cons_of_mem x hy)),
      applyEvent_comm x e (h x (List.mem_cons_self x xs)) fs]

theorem ItemsDisjoint_set :
    ∀ (i : Nat) (ls : List (List FsEvent)) (e : FsEvent) (tl : List FsEvent),
      ls[i]? = some (e :: tl) → ItemsDisjoint ls → ItemsDisjoint (ls.set i tl) := by
  intro i
  induction i with
  | zero =>
    intro ls e tl hget hd
    cases ls with
    | nil => cases hget
    | cons l rest =>
      obtain rfl : l = e :: tl := by simpa using hget
      rw [List.set_cons_zero]
      rcases List.pairwise_cons.mp hd with ⟨h₁, h₂⟩
      exact List.Pairwise.cons
        (fun l₂ hl₂ a ha b hb => h₁ l₂ hl₂ a (List.mem_cons_of_mem e ha) b hb) h₂
  | succ n ih =>
    intro ls e tl hget hd
    cases ls with
    | nil => cases hget
    | cons l rest =>
      rw [List.getElem?_cons_succ] at hget
      rw [List.set_cons_succ]
      rcases List.pairwise_cons.mp hd with ⟨h₁, h₂⟩
      refine List.Pairwise.cons ?_ (ih rest e tl hget h₂)
      intro l₂ hl₂ a ha b hb
      rcases List.mem_or_eq_of_mem_set hl₂ with h | h
      · exact h₁ l₂ h a ha b hb
      · rw [h] at hb
        exact h₁ (e :: tl) (List.getElem?_mem hget) a ha b (List.mem_cons_of_mem e hb)

theorem runEvents_set (e : FsEvent) (tl : List FsEvent) :
    ∀ (i : Nat) (ls : List (List FsEvent)) (fs : Path → Option (List Char)),
      ls[i]? = some (e :: tl) → ItemsDisjoint ls →
      runEvents fs ls.flatten =
        runEvents (applyEvent fs e) (ls.set i tl).flatten := by
  intro i
  induction i with
  | zero =>
    intro ls fs hget _
    cases ls with
    | nil => cases hget
    | cons l rest =>
      obtain rfl : l = e :: tl := by simpa using hget
      rw [List.set_cons_zero]
      rfl
  | succ n ih =>
    intro ls fs hget hd
    cases ls with
    | nil => cases hget
    | cons l rest =>
      rw [List.getElem?_cons_succ] at hget
      rcases List.pairwise_cons.mp hd with ⟨h₁, h₂⟩
      rw [List.set_cons_succ, List.flatten_cons, List.flatten_cons]
      have happ : ∀ (g : Path → Option (List Char)) (X : List FsEvent),
          runEvents g (l ++ X) = runEvents (runEvents g l) X := by
        intro g X
        unfold runEvents
        rw [List.foldl_append]
      rw [happ, happ]
      rw [ih rest (runEvents fs l) hget h₂]
      have hcomm : applyEvent (runEvents fs l) e = runEvents (applyEvent fs e) l := by
        refine runEvents_apply_comm e l fs ?_
        intro x hx
        exact h₁ (e :: tl) (List.getElem?_mem hget) x hx e (List.mem_cons_self e tl)
      rw [hcomm]

/-- Determinism of parallel schedules over footprint-disjoint items: every
interleaving of the per-item event sequences produces the same file contents
as the sequential run. -/
theorem merge_runEvents :
    ∀ {ls : List (List FsEvent)} {es : List FsEvent}, Merge ls es →
      ItemsDisjoint ls →
      ∀ fs, runEvents fs es = runEvents fs ls.flatten := by
  intro ls es hm
  induction hm with
  | nil h =>
    intro _ fs
    rw [List.flatten_eq_nil_iff.mpr h]
  | step i e tl hget _ ih =>
    intro hd fs
    show runEvents (applyEvent fs e) _ = _
    rw [ih (ItemsDisjoint_set i _ e tl hget hd) (applyEvent fs e),
      ← runEvents_set e tl i _ fs hget hd]

/-- The strictly sequential schedule is an interleaving. -/
theorem merge_cons_left (l : List FsEvent) :
    ∀ {ls es}, Merge ls es → Merge (l :: ls) (l ++ es) := by
  induction l with
  | nil =>
    intro ls es h
    induction h with
    | nil h₀ =>
      exact Merge.nil (by
        intro x hx
        rcases List.mem_cons.mp hx with h | h
        · exact h
        · exact h₀ x h)
    | step i e tl hget _ ih =>
      exact Merge.step (i + 1) e tl (by simpa using hget) (by simpa using ih)
  | cons x xs ih =>
    intro ls es h
    exact Merge.step 0 x xs (by simp) (by simpa using ih h)

theorem merge_self : ∀ ls : List (List FsEvent), Merge ls ls.flatten := by
  intro ls
  induction ls with
  | nil => exact Merge.nil (by intro x hx; cases hx)
  | cons l rest ih => exact merge_cons_left l ih

/-- The fully-swapped schedule of two items is an interleaving. -/
theorem merge_two_swap (l₁ l₂ : List FsEvent) : Merge [l₁, l₂] (l₂ ++ l₁) := by
  induction l₂ with
  | nil =>
    show Merge [l₁, []] ([] ++ l₁)
    rw [List.nil_append]
    induction l₁ with
    | nil =>
      exact Merge.nil (by intro x hx; simp at hx; exact hx)
    | cons e tl ih => exact Merge.step 0 e tl (by simp) ih
  | cons e tl ih => exact Merge.step 1 e tl (by simp) (by simpa using ih)

/-- One work item of the splitting batch: the data `process_file` reads from
the filesystem for this item. -/
structure SplitItem where
  stem : String
  content : List Char
  book_dir_exists : Bool
  readError : Option (List Char)

/-- The filesystem effects one item of the splitting batch performs. -/
def splitItemEvents (dst_root : Path) (level : Nat) (force : Bool)
    (act : NoSplitAction) (dry_run : Bool) (it : SplitItem) : List FsEvent :=
  (split_process_file it.stem it.content dst_root level force act dry_run
    it.book_dir_exists it.readError).1

/-- Stem `x`, two chapters, first body `body1`. -/
def itemX1 : SplitItem := ⟨"x", "# t\nbody1\n# u\nb".data, false, none⟩

/-- Stem `x` again (a second source file with the same stem), first body
`body2`: it writes the very same chapter path as `itemX1`. -/
def itemX2 : SplitItem := ⟨"x", "# t\nbody2\n# u\nb".data, false, none⟩

/-- Stem `y`: destination paths disjoint from `itemX1`'s. -/
def itemY : SplitItem := ⟨"y", "# t\nbody2\n# u\nb".data, false, none⟩

/-- C9 (counterexample). Two batch items with the same stem (`a/x.md` and
`b/x.md` both have stem `x`) write the same chapter path
`dst/x/ch00_t.md` with different contents.  The fully-swapped two-worker
schedule is a legal interleaving (`Merge`), yet it produces different final
contents at that path than the sequential (`workers = 1`) order — so
`workerCount = 1` and `workerCount = N > 1` do NOT always produce identical
destination file contents. -/
theorem claim_C9_cex :
    Merge
      [splitItemEvents ["dst"] 1 false NoSplitAction.skip false itemX1,
        splitItemEvents ["dst"] 1 false NoSplitAction.skip false itemX2]
      (splitItemEvents ["dst"] 1 false NoSplitAction.skip false itemX2 ++
        splitItemEvents ["dst"] 1 false NoSplitAction.skip false itemX1) ∧
    runEvents emptyFs
        (splitItemEvents ["dst"] 1 false NoSplitAction.skip false itemX2 ++
          splitItemEvents ["dst"] 1 false NoSplitAction.skip false itemX1)
        ["dst", "x", "ch00_t.md"] ≠
      runEvents emptyFs
        ([splitItemEvents ["dst"] 1 false NoSplitAction.skip false itemX1,
          splitItemEvents ["dst"] 1 false NoSplitAction.skip false itemX2].flatten)
        ["dst", "x", "ch00_t.md"] :=
  ⟨merge_two_swap _ _, by decide⟩

/-- C9 (amended). For a fixed input set whose items have pairwise disjoint
filesystem footprints (e.g. pairwise distinct destination paths — which the
splitting pipeline only guarantees for distinct stems), EVERY parallel
schedule (any interleaving of the per-item event sequences, hence any
`workerCount`) produces exactly the destination file contents of the
sequential `workerCount = 1` run; per-item outcomes, and hence summary
counts, are schedule-independent by construction. -/
theorem claim_C9 :
    ∀ (dst_root : Path) (level : Nat) (force : Bool) (act : NoSplitAction)
      (dry_run : Bool) (items : List SplitItem) (es : List FsEvent),
      Merge (items.map (splitItemEvents dst_root level force act dry_run)) es →
      ItemsDisjoint (items.map (splitItemEvents dst_root level force act dry_run)) →
      ∀ fs, runEvents fs es =
        runEvents fs
          (items.map (splitItemEvents dst_root level force act dry_run)).flatten :=
  fun _ _ _ _ _ _ _ hm hd => merge_runEvents hm hd

/-- C9 (witness): two items with distinct stems; the swapped two-worker
schedule yields the same final file contents as the sequential run. -/
theorem claim_C9_witness :
    runEvents emptyFs
        (splitItemEvents ["dst"] 1 false NoSplitAction.skip false itemY ++
          splitItemEvents ["dst"] 1 false NoSplitAction.skip false itemX1) =
      runEvents emptyFs
        ([itemX1, itemY].map
          (splitItemEvents ["dst"] 1 false NoSplitAction.skip false)).flatten :=
  claim_C9 ["dst"] 1 false NoSplitAction.skip false [itemX1, itemY] _
    (merge_two_swap _ _) (by unfold ItemsDisjoint; decide) emptyFs

/-! ## Structure of the scan: supporting lemmas for the splitter -/

theorem matchHeading_some_facts {level : Nat} {cs : List Char} {mlen : Nat}
    {t : List Char} (h : matchHeading level cs = some (mlen, t)) :
    1 ≤ mlen ∧ (1 ≤ level → cs.head? = some '#') := by
  unfold matchHeading at h
  by_cases h1 : (cs.take level == List.replicate level '#') = true
  · rw [if_pos h1] at h
    dsimp only at h
    constructor
    · split at h
      · split at h
        · rename_i hs
          have hinj := (Prod.mk.injEq _ _ _ _).mp (Option.some.inj h)
          omega
        · simp at h
      · split at h
        · rename_i hs
          have hinj := (Prod.mk.injEq _ _ _ _).mp (Option.some.inj h)
          omega
        · simp at h
    · intro hlev
      have heq : cs.take level = List.replicate level '#' := beq_iff_eq.mp h1
      cases cs with
      | nil =>
        exfalso
        have hcon := congrArg List.length heq
        simp at hcon
        omega
      | cons c cs' =>
        cases level with
        | zero => omega
        | succ k =>
          rw [List.take_succ_cons, List.replicate_succ] at heq
          rw [((List.cons.injEq _ _ _ _).mp heq).1]
          rfl
  · rw [if_neg h1] at h
    cases h

theorem scanAux_flatten (level : Nat) :
    ∀ (fuel : Nat) (cs : List Char) (atStart : Bool) (title chunkRev : List Char),
      cs.length ≤ fuel →
      ((scanAux level fuel cs atStart title chunkRev).map Prod.snd).flatten =
        chunkRev.reverse ++ cs := by
  intro fuel
  induction fuel with
  | zero =>
    intro cs atStart title chunkRev hlen
    have : cs = [] := List.length_eq_zero.mp (Nat.le_zero.mp hlen)
    subst this
    simp [scanAux]
  | succ f ih =>
    intro cs atStart title chunkRev hlen
    cases cs with
    | nil => simp [scanAux]
    | cons c cs' =>
      show ((match (if atStart then matchHeading level (c :: cs') else none) with
        | some (mlen, t) =>
          (title, chunkRev.reverse) ::
            scanAux level f ((c :: cs').drop mlen) false (stripChars t)
              ((c :: cs').take mlen).reverse
        | none =>
            scanAux level f cs' (c == '\n') title (c :: chunkRev)).map
          Prod.snd).flatten = chunkRev.reverse ++ (c :: cs')
      cases hm : (if atStart then matchHeading level (c :: cs') else none) with
      | none =>
        have hlen' : cs'.length ≤ f := by
          simp only [List.length_cons] at hlen
          omega
        rw [ih cs' (c == '\n') title (c :: chunkRev) hlen']
        simp
      | some p =>
        obtain ⟨mlen, t⟩ := p
        have hmh : matchHeading level (c :: cs') = some (mlen, t) := by
          cases atStart with
          | true => simpa using hm
          | false => simp at hm
        have h1 := (matchHeading_some_facts hmh).1
        have hlen' : ((c :: cs').drop mlen).length ≤ f := by
          rw [List.length_drop]
          simp only [List.length_cons] at hlen ⊢
          omega
        simp only [List.map_cons, List.flatten_cons]
        rw [ih ((c :: cs').drop mlen) false (stripChars t)
          ((c :: cs').take mlen).reverse hlen']
        rw [List.reverse_reverse, List.take_append_drop]

theorem scanAux_head_struct (level : Nat) :
    ∀ (fuel : Nat) (cs : List Char) (atStart : Bool) (title chunkRev : List Char),
      ∃ u rest, scanAux level fuel cs atStart title chunkRev =
        (title, chunkRev.reverse ++ u) :: rest := by
  intro fuel
  induction fuel with
  | zero =>
    intro cs atStart title chunkRev
    exact ⟨[], [], by simp [scanAux]⟩
  | succ f ih =>
    intro cs atStart title chunkRev
    cases cs with
    | nil => exact ⟨[], [], by simp [scanAux]⟩
    | cons c cs' =>
      cases hm : (if atStart then matchHeading level (c :: cs') else none) with
      | some pr =>
        obtain ⟨mlen, t⟩ := pr
        refine ⟨[], scanAux level f ((c :: cs').drop mlen) false (stripChars t)
          ((c :: cs').take mlen).reverse, ?_⟩
        simp [scanAux, hm]
      | none =>
        obtain ⟨u, rest, hu⟩ := ih cs' (c == '\n') title (c :: chunkRev)
        refine ⟨c :: u, rest, ?_⟩
        simp only [scanAux, hm]
        rw [hu]
        simp [List.reverse_cons, List.append_assoc]

theorem scanAux_tail_sharp (level : Nat) (hL : 1 ≤ level) :
    ∀ (fuel : Nat) (cs : List Char) (atStart : Bool) (title chunkRev : List Char),
      ∀ p ∈ (scanAux level fuel cs atStart title chunkRev).tail,
        p.2.head? = some '#' := by
  intro fuel
  induction fuel with
  | zero =>
    intro cs atStart title chunkRev p hp
    simp [scanAux] at hp
  | succ f ih =>
    intro cs atStart title chunkRev p hp
    cases cs with
    | nil => simp [scanAux] at hp
    | cons c cs' =>
      cases hm : (if atStart then matchHeading level (c :: cs') else none) with
      | none =>
        have hrw : scanAux level (f + 1) (c :: cs') atStart title chunkRev =
            scanAux level f cs' (c == '\n') title (c :: chunkRev) := by
          simp [scanAux, hm]
        rw [hrw] at hp
        exact ih cs' (c == '\n') title (c :: chunkRev) p hp
      | some pr =>
        obtain ⟨mlen, t⟩ := pr
        have hmh : matchHeading level (c :: cs') = some (mlen, t) := by
          cases atStart with
          | true => simpa using hm
          | false => simp at hm
        have hc : c = '#' := by
          have hh := (matchHeading_some_facts hmh).2 hL
          simpa using hh
        have hrw : scanAux level (f + 1) (c :: cs') atStart title chunkRev =
            (title, chunkRev.reverse) ::
              scanAux level f ((c :: cs').drop mlen) false (stripChars t)
                ((c :: cs').take mlen).reverse := by
          simp [scanAux, hm]
        rw [hrw] at hp
        simp only [List.tail_cons] at hp
        obtain ⟨u, rest, hu⟩ := scanAux_head_struct level f ((c :: cs').drop mlen)
          false (stripChars t) ((c :: cs').take mlen).reverse
        rw [hu] at hp
        rcases List.mem_cons.mp hp with h | h
        · subst h
          show (((c :: cs').take mlen).reverse.reverse ++ u).head? = some '#'
          rw [List.reverse_reverse]
          have hml := (matchHeading_some_facts hmh).1
          cases mlen with
          | zero => omega
          | succ m =>
            rw [List.take_succ_cons, hc]
            rfl
        · refine ih ((c :: cs').drop mlen) false (stripChars t)
            ((c :: cs').take mlen).reverse p ?_
          rw [hu]
          simpa using h

theorem stripChars_decomp (cs : List Char) :
    ∃ a b, cs = a ++ stripChars cs ++ b ∧
      (∀ c ∈ a, isSpace c = true) ∧ (∀ c ∈ b, isSpace c = true) := by
  refine ⟨cs.takeWhile isSpace,
    ((cs.dropWhile isSpace).reverse.takeWhile isSpace).reverse, ?_, ?_, ?_⟩
  · rw [List.append_assoc]
    conv_lhs => rw [← List.takeWhile_append_dropWhile isSpace cs]
    congr 1
    calc cs.dropWhile isSpace = (cs.dropWhile isSpace).reverse.reverse :=
        (List.reverse_reverse _).symm
    _ = ((cs.dropWhile isSpace).reverse.takeWhile isSpace ++
          (cs.dropWhile isSpace).reverse.dropWhile isSpace).reverse := by
        rw [List.takeWhile_append_dropWhile]
    _ = ((cs.dropWhile isSpace).reverse.dropWhile isSpace).reverse ++
          ((cs.dropWhile isSpace).reverse.takeWhile isSpace).reverse := by
        rw [List.reverse_append]
  · intro c hc
    exact List.mem_takeWhile_imp hc
  · intro c hc
    rw [List.mem_reverse] at hc
    exact List.mem_takeWhile_imp hc

theorem stripChars_nil_allSpace {cs : List Char} (h : stripChars cs = []) :
    ∀ c ∈ cs, isSpace c = true := by
  obtain ⟨a, b, hdecomp, ha, hb⟩ := stripChars_decomp cs
  rw [h] at hdecomp
  intro c hc
  rw [hdecomp] at hc
  simp at hc
  rcases hc with h1 | h1
  · exact ha c h1
  · exact hb c h1

theorem stripChars_cons_sharp (xs : List Char) :
    (stripChars ('#' :: xs)).head? = some '#' := by
  unfold stripChars
  rw [List.dropWhile_cons, if_neg (by decide : ¬ (isSpace '#' = true))]
  rw [List.reverse_cons, List.dropWhile_append]
  split
  · rfl
  · rw [List.reverse_append]
    rfl

/-- The `if body.strip(): parts.append((last_title, body.strip()))` step of
`split_markdown` as a `filterMap` function. -/
def stripKeep (tc : List Char × List Char) : Option (List Char × List Char) :=
  if (stripChars tc.2).isEmpty then none else some (tc.1, stripChars tc.2)

/-- The same on bare regions, forgetting titles. -/
def stripKeepChunk (c : List Char) : Option (List Char) :=
  if (stripChars c).isEmpty then none else some (stripChars c)

/-- The refinement loop of `split_markdown` on one part. -/
def refinePart (level : Nat) (tc : List Char × List Char) : List Char × List Char :=
  if tc.2.head? == some '#' then tc
  else (tc.1, List.replicate level '#' ++ ' ' :: tc.1 ++ '\n' :: '\n' :: tc.2)

theorem splitMarkdownL_eq (level : Nat) (cs : List Char) :
    splitMarkdownL level cs =
      ((rawParts level cs).filterMap stripKeep).map (refinePart level) := rfl

/-- The heading line which the refinement loop synthesizes in front of a
prologue that does not itself start with `#`. -/
def synthPrologue (level : Nat) : List Char :=
  List.replicate level '#' ++ ' ' :: "prologue".data ++ ['\n', '\n']

/-- Interleaving glue: a leading pad, then each core followed by its pad. -/
def weave : List Char → List (List Char × List Char) → List Char
  | p, [] => p
  | p, (c, q) :: rest => p ++ (c ++ weave q rest)

/-- `text` consists exactly of the `cores`, in order, separated (and
surrounded) only by whitespace: no other characters are added or removed. -/
def WsInterleaved (cores : List (List Char)) (text : List Char) : Prop :=
  ∃ (p₀ : List Char) (pairs : List (List Char × List Char)),
    (∀ c ∈ p₀, isSpace c = true) ∧
    (∀ pr ∈ pairs, ∀ c ∈ pr.2, isSpace c = true) ∧
    pairs.map Prod.fst = cores ∧
    weave p₀ pairs = text

theorem weave_pad (p : List Char) (pairs : List (List Char × List Char)) :
    weave p pairs = p ++ weave [] pairs := by
  cases pairs with
  | nil => simp [weave]
  | cons pr rest =>
    obtain ⟨c, q⟩ := pr
    simp [weave]

theorem chunks_interleaved :
    ∀ chunks : List (List Char),
      WsInterleaved (chunks.filterMap stripKeepChunk) chunks.flatten := by
  intro chunks
  induction chunks with
  | nil => exact ⟨[], [], by simp, by simp, by simp, rfl⟩
  | cons c rest ih =>
    obtain ⟨p₀, pairs, hp₀, hpairs, hmap, hweave⟩ := ih
    by_cases hempty : (stripChars c).isEmpty = true
    · refine ⟨c ++ p₀, pairs, ?_, hpairs, ?_, ?_⟩
      · intro d hd
        rcases List.mem_append.mp hd with h | h
        · exact stripChars_nil_allSpace (List.isEmpty_iff.mp hempty) d h
        · exact hp₀ d h
      · have hfc : stripKeepChunk c = none := by
          unfold stripKeepChunk
          rw [if_pos hempty]
        simp only [List.filterMap_cons, hfc]
        exact hmap
      · rw [List.flatten_cons, weave_pad, List.append_assoc, ← weave_pad, hweave]
    · obtain ⟨a, b, hdec, ha, hb⟩ := stripChars_decomp c
      refine ⟨a, (stripChars c, b ++ p₀) :: pairs, ha, ?_, ?_, ?_⟩
      · intro pr hpr
        rcases List.mem_cons.mp hpr with h | h
        · rw [h]
          intro d hd
          rcases List.mem_append.mp hd with h1 | h1
          · exact hb d h1
          · exact hp₀ d h1
        · exact hpairs pr h
      · have hfc : stripKeepChunk c = some (stripChars c) := by
          unfold stripKeepChunk
          rw [if_neg hempty]
        simp only [List.filterMap_cons, hfc, List.map_cons]
        rw [hmap]
      · show a ++ (stripChars c ++ weave (b ++ p₀) pairs) = (c :: rest).flatten
        rw [List.flatten_cons, weave_pad (b ++ p₀), ← hweave, weave_pad p₀]
        conv_rhs => rw [hdec]
        simp [List.append_assoc]

theorem filterMap_snd_exchange :
    ∀ l : List (List Char × List Char),
      (l.filterMap stripKeep).map Prod.snd =
        (l.map Prod.snd).filterMap stripKeepChunk := by
  intro l
  induction l with
  | nil => rfl
  | cons tc rest ih =>
    by_cases h : (stripChars tc.2).isEmpty = true
    · have h1 : stripKeep tc = none := by
        unfold stripKeep
        rw [if_pos h]
      have h2 : stripKeepChunk tc.2 = none := by
        unfold stripKeepChunk
        rw [if_pos h]
      simp only [List.filterMap_cons, List.map_cons, h1, h2]
      exact ih
    · have h1 : stripKeep tc = some (tc.1, stripChars tc.2) := by
        unfold stripKeep
        rw [if_neg h]
      have h2 : stripKeepChunk tc.2 = some (stripChars tc.2) := by
        unfold stripKeepChunk
        rw [if_neg h]
      simp only [List.filterMap_cons, List.map_cons, h1, h2]
      rw [ih]

/-- Every element of the tail of a `filterMap` of a non-empty list comes from
the tail of the input. -/
theorem filterMap_tail_source {α β : Type} (f : α → Option β) (h : α)
    (T : List α) : ∀ y ∈ (List.filterMap f (h :: T)).tail, y ∈ List.filterMap f T := by
  intro y hy
  rw [List.filterMap_cons] at hy
  cases hf : f h with
  | none =>
    rw [hf] at hy
    exact List.Sublist.mem hy (List.tail_sublist _)
  | some x =>
    rw [hf] at hy
    simpa using hy

theorem weave_filter :
    ∀ (pairs : List (List Char × List Char)) (p : List Char),
      (∀ c ∈ p, isSpace c = true) →
      (∀ pr ∈ pairs, ∀ c ∈ pr.2, isSpace c = true) →
      (weave p pairs).filter (fun c => !(isSpace c)) =
        (pairs.map fun pr => pr.1.filter (fun c => !(isSpace c))).flatten := by
  intro pairs
  induction pairs with
  | nil =>
    intro p hp _
    show p.filter (fun c => !(isSpace c)) = []
    rw [List.filter_eq_nil_iff]
    intro a ha
    rw [hp a ha]
    decide
  | cons pr rest ih =>
    intro p hp hpairs
    obtain ⟨c, q⟩ := pr
    show (p ++ (c ++ weave q rest)).filter (fun c => !(isSpace c)) = _
    rw [List.filter_append, List.filter_append]
    have hpnil : p.filter (fun c => !(isSpace c)) = [] := by
      rw [List.filter_eq_nil_iff]
      intro a ha
      rw [hp a ha]
      decide
    rw [hpnil, List.nil_append]
    rw [ih q (hpairs (c, q) (List.mem_cons_self _ _))
      (fun pr hpr => hpairs pr (List.mem_cons_of_mem _ hpr))]
    rfl

/-- A whitespace interleaving preserves the sequence of non-whitespace
characters exactly. -/
theorem wsInterleaved_filter {cores : List (List Char)} {text : List Char}
    (h : WsInterleaved cores text) :
    text.filter (fun c => !(isSpace c)) =
      (cores.map fun b => b.filter (fun c => !(isSpace c))).flatten := by
  obtain ⟨p₀, pairs, hp₀, hpairs, hmap, hweave⟩ := h
  rw [← hweave, ← hmap]
  rw [weave_filter pairs p₀ hp₀ hpairs]
  rw [List.map_map]
  rfl

/-- C3 (counterexample). For `"Intro text\n# A\nb"` at level 1, the bodies of
the returned segments are NOT the original text modulo per-segment
whitespace trimming: the refinement loop prepends the synthesized line
`"# prologue\n\n"` to the prologue, adding the non-whitespace characters
`#prologue` that do not occur in this position in the original text. -/
theorem claim_C3_cex :
    ¬ WsInterleaved ((splitMarkdownL 1 "Intro text\n# A\nb".data).map Prod.snd)
        "Intro text\n# A\nb".data := by
  intro h
  have hf := wsInterleaved_filter h
  revert hf
  decide

/-- C3 (amended). For every text and heading level: there is a list of
pre-refinement bodies (`preBodies`) such that the original text consists of
exactly these bodies, in document order, separated and surrounded only by
whitespace (so per-segment leading/trailing trimming and dropped
whitespace-only regions account for every removed character); the bodies the
splitter returns equal `preBodies` EXCEPT that the first body additionally
carries the synthesized heading line `"#"*level ++ " prologue\n\n"` when it
does not itself start with `#`. -/
theorem claim_C3 :
    ∀ (text : String) (level : Nat), 1 ≤ level →
      ∃ preBodies : List (List Char),
        WsInterleaved preBodies text.data ∧
        (splitMarkdownL level text.data).map Prod.snd =
          (match preBodies with
            | [] => []
            | b :: rest =>
              (if b.head? == some '#' then b
                else synthPrologue level ++ b) :: rest) := by
  intro text level hL
  refine ⟨((rawParts level text.data).filterMap stripKeep).map Prod.snd, ?_, ?_⟩
  · rw [filterMap_snd_exchange]
    have h2 : ((rawParts level text.data).map Prod.snd).flatten = text.data := by
      unfold rawParts
      simpa using scanAux_flatten level text.data.length text.data true
        "prologue".data [] le_rfl
    have hci := chunks_interleaved ((rawParts level text.data).map Prod.snd)
    rw [h2] at hci
    exact hci
  · obtain ⟨u, rawTail, hraw⟩ := scanAux_head_struct level text.data.length
      text.data true "prologue".data []
    have hraw' : rawParts level text.data = ("prologue".data, u) :: rawTail := by
      unfold rawParts
      simpa using hraw
    have htail : ∀ z ∈ rawTail, z.2.head? = some '#' := by
      intro z hz
      refine scanAux_tail_sharp level hL text.data.length text.data true
        "prologue".data [] z ?_
      rw [hraw]
      simpa using hz
    have hkeep : ∀ q ∈ List.filterMap stripKeep rawTail, q.2.head? = some '#' := by
      intro q hq
      obtain ⟨z, hz, hfz⟩ := List.mem_filterMap.mp hq
      have hzh := htail z hz
      obtain ⟨zs, hzs⟩ : ∃ zs, z.2 = '#' :: zs := by
        cases hz2 : z.2 with
        | nil =>
          rw [hz2] at hzh
          simp at hzh
        | cons a as =>
          rw [hz2] at hzh
          have ha : a = '#' := by simpa using hzh
          exact ⟨as, by rw [ha]⟩
      unfold stripKeep at hfz
      by_cases hse : (stripChars z.2).isEmpty = true
      · rw [if_pos hse] at hfz
        cases hfz
      · rw [if_neg hse] at hfz
        have hsnd := congrArg Prod.snd (Option.some.inj hfz)
        rw [← hsnd, hzs]
        exact stripChars_cons_sharp zs
    have hmapref : ∀ l : List (List Char × List Char),
        (∀ q ∈ l, q.2.head? = some '#') →
        (l.map (refinePart level)).map Prod.snd = l.map Prod.snd := by
      intro l hl
      rw [List.map_map]
      refine List.map_congr_left ?_
      intro q hq
      show (refinePart level q).2 = q.2
      unfold refinePart
      rw [if_pos (by rw [hl q hq]; rfl)]
    rw [splitMarkdownL_eq, hraw', List.filterMap_cons]
    cases hfc : stripKeep ("prologue".data, u) with
    | some x =>
      simp only [List.map_cons]
      rw [hmapref (List.filterMap stripKeep rawTail) hkeep]
      have hx1 : x.1 = "prologue".data := by
        unfold stripKeep at hfc
        by_cases hse : (stripChars u).isEmpty = true
        · rw [if_pos hse] at hfc
          cases hfc
        · rw [if_neg hse] at hfc
          rw [← Option.some.inj hfc]
      show (refinePart level x).2 :: _ = _
      unfold refinePart
      by_cases hx2 : (x.2.head? == some '#') = true
      · rw [if_pos hx2]
        rw [if_pos hx2]
      · rw [if_neg hx2]
        rw [if_neg hx2]
        show (List.replicate level '#' ++ ' ' :: x.1 ++ '\n' :: '\n' :: x.2) :: _ = _
        rw [hx1]
        unfold synthPrologue
        simp [List.append_assoc]
    | none =>
      simp only []
      rw [hmapref (List.filterMap stripKeep rawTail) hkeep]
      cases hfm : List.filterMap stripKeep rawTail with
      | nil => rfl
      | cons q rest2 =>
        simp only [List.map_cons]
        have hq := hkeep q (by rw [hfm]; exact List.mem_cons_self _ _)
        rw [if_pos (by rw [hq]; rfl)]

/-- C3 (witness): the amended claim instantiated at heading level 1 and a
concrete text with a prologue and two chapters. -/
theorem claim_C3_witness :
    ∃ preBodies : List (List Char),
      WsInterleaved preBodies "Intro text\n# A\nbody1\n# B\nbody2".data ∧
      (splitMarkdownL 1 "Intro text\n# A\nbody1\n# B\nbody2".data).map Prod.snd =
        (match preBodies with
          | [] => []
          | b :: rest =>
            (if b.head? == some '#' then b
              else synthPrologue 1 ++ b) :: rest) :=
  claim_C3 "Intro text\n# A\nbody1\n# B\nbody2" 1 (by decide)

/-! ## Split boundaries: supporting definitions and lemmas for C7 -/

/-- Positions (in the original text) at which `finditer` matches of the
heading pattern start; `pos` is the absolute position of the current suffix
and `atStart` the state of the `^` anchor, exactly as in `scanAux`. -/
def matchStartsAux (level : Nat) : Nat → List Char → Bool → Nat → List Nat
  | 0, _, _, _ => []
  | fuel + 1, cs, atStart, pos =>
    match cs with
    | [] => []
    | c :: cs' =>
      match (if atStart then matchHeading level (c :: cs') else none) with
      | some (mlen, _) =>
        pos :: matchStartsAux level fuel ((c :: cs').drop mlen) false (pos + mlen)
      | none => matchStartsAux level fuel cs' (c == '\n') (pos + 1)

/-- The positions at which heading matches start: the split boundaries of
`split_markdown`. -/
def matchStarts (level : Nat) (cs : List Char) : List Nat :=
  matchStartsAux level cs.length cs true 0

/-- The line of `cs` beginning at position `q` (up to the next newline). -/
def lineAt (cs : List Char) (q : Nat) : List Char :=
  (cs.drop q).takeWhile (fun c => c != '\n')

/-- `q` starts a line of `cs` relative to an anchor flag: position `0` when
the anchor holds, or any position just after a newline. -/
def relLineStart (cs : List Char) (anchor : Bool) : Nat → Prop
  | 0 => anchor = true
  | q + 1 => cs[q]? = some '\n'

/-- `q` starts a line of the whole text. -/
def isLineStart (cs : List Char) (q : Nat) : Prop := relLineStart cs true q

/-- The specification's split-boundary shape: the line begins with exactly
`level` `#` markers, followed by whitespace and a title. -/
def isHeadingLine (level : Nat) (line : List Char) : Bool :=
  line.take level == List.replicate level '#' &&
    (match line.drop level with
      | c :: _ :: _ => isSpace c
      | _ => false)

/-- A line consisting of exactly `level` markers followed by nothing but
whitespace (possibly none): on such a line the pattern's `\s+` can cross the
newline into following lines. -/
def isBareMarker (level : Nat) (line : List Char) : Bool :=
  line.take level == List.replicate level '#' && (line.drop level).all isSpace

theorem takeWhile_take_drop (P : Char → Bool) :
    ∀ (n : Nat) (cs : List Char), (∀ c ∈ cs.take n, P c = true) →
      (cs.takeWhile P).take n = cs.take n ∧
        (cs.takeWhile P).drop n = (cs.drop n).takeWhile P := by
  intro n
  induction n with
  | zero => intro cs _; exact ⟨rfl, rfl⟩
  | succ k ih =>
    intro cs hcs
    cases cs with
    | nil => exact ⟨rfl, rfl⟩
    | cons c cs' =>
      have hc : P c = true := hcs c (List.mem_cons_self _ _)
      have ih' := ih cs' (fun d hd => hcs d (List.mem_cons_of_mem c hd))
      rw [List.takeWhile_cons, if_pos hc]
      rw [List.take_succ_cons, List.drop_succ_cons, List.take_succ_cons,
        List.drop_succ_cons]
      exact ⟨by rw [ih'.1], ih'.2⟩

theorem dropWhile_head_false (p : Char → Bool) :
    ∀ (l : List Char) (a : Char) (l' : List Char),
      l.dropWhile p = a :: l' → p a = false := by
  intro l
  induction l with
  | nil => intro a l' h; cases h
  | cons x xs ih =>
    intro a l' h
    rw [List.dropWhile_cons] at h
    by_cases hx : p x = true
    · rw [if_pos hx] at h
      exact ih a l' h
    · rw [if_neg hx] at h
      obtain ⟨h1, -⟩ := (List.cons.injEq _ _ _ _).mp h
      cases hpx : p x with
      | false => rw [← h1]; exact hpx
      | true => exact absurd hpx hx

theorem dropWhile_ne_nil_of_all_false {p : Char → Bool} {l : List Char}
    (h : l.all p = false) : l.dropWhile p ≠ [] := by
  intro hnil
  have hall : l.all p = true := by
    have htw := List.takeWhile_append_dropWhile p l
    rw [hnil, List.append_nil] at htw
    rw [List.all_eq_true]
    intro x hx
    refine List.mem_takeWhile_imp (l := l) (p := p) ?_
    rw [htw]
    exact hx
  rw [hall] at h
  cases h

/-- Evaluation of `matchHeading` when the marker prefix matches and the
whitespace run stops strictly inside the remaining text. -/
theorem matchHeading_eval_pos {level : Nat} {cs : List Char}
    (htk : (cs.take level == List.replicate level '#') = true)
    (hlt : ((cs.drop level).takeWhile isSpace).length < (cs.drop level).length)
    (hW1 : 1 ≤ ((cs.drop level).takeWhile isSpace).length) :
    matchHeading level cs =
      some (level + ((cs.drop level).takeWhile isSpace).length +
          (((cs.drop level).drop ((cs.drop level).takeWhile isSpace).length).takeWhile
            (fun c => c != '\n')).length,
        ((cs.drop level).drop ((cs.drop level).takeWhile isSpace).length).takeWhile
          (fun c => c != '\n')) := by
  unfold matchHeading
  rw [if_pos htk]
  dsimp only
  rw [if_pos hlt, if_pos hW1]

/-- Evaluation of `matchHeading` when the marker prefix matches but no
whitespace follows it: no match. -/
theorem matchHeading_eval_w0 {level : Nat} {cs : List Char}
    (htk : (cs.take level == List.replicate level '#') = true)
    (hw : (cs.drop level).takeWhile isSpace = []) :
    matchHeading level cs = none := by
  unfold matchHeading
  rw [if_pos htk]
  dsimp only
  rw [hw]
  simp only [List.length_nil]
  split
  · rw [if_neg (by omega)]
  · rw [if_neg (by omega)]

/-- `matchHeading` on a suffix whose first line is `#`-markers, a non-empty
whitespace run, then a non-whitespace character: the match spans to the end
of the line. -/
theorem matchHeading_shape {level : Nat} {cs W R : List Char} {d : Char}
    {L' : List Char}
    (htk : (cs.take level == List.replicate level '#') = true)
    (hrdec : cs.drop level = W ++ (d :: (L' ++ R)))
    (hWall : ∀ x ∈ W, isSpace x = true)
    (hd : isSpace d = false)
    (hL'all : ∀ x ∈ L', (x != '\n') = true)
    (hRtw : R.takeWhile (fun c => c != '\n') = [])
    (hW1 : 1 ≤ W.length) :
    matchHeading level cs =
      some (level + W.length + (d :: L').length, d :: L') := by
  have hdn : (d != '\n') = true := by
    by_contra hc
    rw [show d = '\n' from by simpa using hc] at hd
    exact absurd hd (by decide)
  have hws : (cs.drop level).takeWhile isSpace = W := by
    rw [hrdec, List.takeWhile_append_of_pos hWall, List.takeWhile_cons,
      if_neg (by simp [hd]), List.append_nil]
  have hlt2 : ((cs.drop level).takeWhile isSpace).length < (cs.drop level).length := by
    rw [hws, hrdec]
    simp
  have htitle : ((cs.drop level).drop ((cs.drop level).takeWhile isSpace).length).takeWhile
      (fun c => c != '\n') = d :: L' := by
    rw [hws, hrdec]
    rw [show W ++ (d :: (L' ++ R)) = W ++ ((d :: L') ++ R) from by simp]
    rw [List.drop_left]
    rw [List.takeWhile_append_of_pos ?hall, hRtw, List.append_nil]
    case hall =>
      intro x hx
      rcases List.mem_cons.mp hx with h | h
      · rw [h]
        exact hdn
      · exact hL'all x h
  have hres := matchHeading_eval_pos htk hlt2 (by rw [hws]; exact hW1)
  rw [htitle, hws] at hres
  exact hres

/-- The core line/match correspondence: at the start of a line that is not a
bare marker line, `matchHeading` succeeds exactly when the line has the
claimed heading shape, and a match spans exactly the line. -/
theorem matchHeading_line (level : Nat) (cs : List Char)
    (hbare : isBareMarker level (cs.takeWhile (fun c => c != '\n')) = false) :
    ((matchHeading level cs).isSome =
      isHeadingLine level (cs.takeWhile (fun c => c != '\n'))) ∧
    (∀ mlen t, matchHeading level cs = some (mlen, t) →
      mlen = (cs.takeWhile (fun c => c != '\n')).length) := by
  by_cases htk : (cs.take level == List.replicate level '#') = true
  · have heq : cs.take level = List.replicate level '#' := beq_iff_eq.mp htk
    have hpfx : ∀ c ∈ cs.take level, (fun c => c != '\n') c = true := by
      intro c hc
      rw [heq] at hc
      rw [(List.mem_replicate.mp hc).2]
      decide
    obtain ⟨hlt, hld⟩ := takeWhile_take_drop (fun c => c != '\n') level cs hpfx
    have h1 : ((cs.takeWhile (fun c => c != '\n')).take level ==
        List.replicate level '#') = true := by
      rw [hlt, heq]
      exact beq_self_eq_true _
    obtain ⟨L, hLeq⟩ : ∃ L, (cs.drop level).takeWhile (fun c => c != '\n') = L :=
      ⟨_, rfl⟩
    obtain ⟨R, hReq⟩ : ∃ R, (cs.drop level).dropWhile (fun c => c != '\n') = R :=
      ⟨_, rfl⟩
    have hrestLR : cs.drop level = L ++ R := by
      rw [← hLeq, ← hReq, List.takeWhile_append_dropWhile]
    have hLall : ∀ x ∈ L, (x != '\n') = true := by
      intro x hx
      rw [← hLeq] at hx
      exact List.mem_takeWhile_imp (p := fun c => c != '\n') hx
    have hRtw : R.takeWhile (fun c => c != '\n') = [] := by
      cases hRc : R with
      | nil => rfl
      | cons r R' =>
        have hr := dropWhile_head_false (fun c => c != '\n') (cs.drop level) r R'
          (by rw [hReq, hRc])
        rw [List.takeWhile_cons, if_neg (by simp [hr])]
    have hld2 : (cs.takeWhile (fun c => c != '\n')).drop level = L := by
      rw [hld, hLeq]
    have hbareL : L.all isSpace = false := by
      unfold isBareMarker at hbare
      rw [h1, Bool.true_and, hld2] at hbare
      exact hbare
    obtain ⟨W, hWeq⟩ : ∃ W, L.takeWhile isSpace = W := ⟨_, rfl⟩
    obtain ⟨D, hDeq⟩ : ∃ D, L.dropWhile isSpace = D := ⟨_, rfl⟩
    obtain ⟨d, L', hDc⟩ : ∃ d L', D = d :: L' := by
      cases hDD : D with
      | nil =>
        exfalso
        refine dropWhile_ne_nil_of_all_false hbareL ?_
        rw [hDeq, hDD]
      | cons d L' => exact ⟨d, L', rfl⟩
    have hd : isSpace d = false :=
      dropWhile_head_false isSpace L d L' (by rw [hDeq, hDc])
    have hWall : ∀ x ∈ W, isSpace x = true := by
      intro x hx
      rw [← hWeq] at hx
      exact List.mem_takeWhile_imp hx
    have hLdec : L = W ++ d :: L' := by
      rw [← List.takeWhile_append_dropWhile isSpace L, hWeq, hDeq, hDc]
    have hL'all : ∀ x ∈ L', (x != '\n') = true := by
      intro x hx
      refine hLall x ?_
      rw [hLdec]
      exact List.mem_append_right _ (List.mem_cons_of_mem d hx)
    have hrdec : cs.drop level = W ++ (d :: (L' ++ R)) := by
      rw [hrestLR, hLdec]
      simp [List.append_assoc]
    have hlinelen : (cs.takeWhile (fun c => c != '\n')).length = level + L.length := by
      conv_lhs => rw [← List.take_append_drop level (cs.takeWhile (fun c => c != '\n'))]
      rw [List.length_append, hlt, heq, List.length_replicate, hld2]
    cases hWc : W with
    | nil =>
      have hmn : matchHeading level cs = none := by
        refine matchHeading_eval_w0 htk ?_
        rw [hrestLR, hLdec, hWc, List.nil_append, List.cons_append,
          List.takeWhile_cons, if_neg (by simp [hd])]
      have hhl : isHeadingLine level (cs.takeWhile (fun c => c != '\n')) = false := by
        unfold isHeadingLine
        rw [h1, Bool.true_and, hld2, hLdec, hWc, List.nil_append]
        cases L' with
        | nil => rfl
        | cons x xs => exact hd
      refine ⟨by rw [hmn, hhl]; rfl, ?_⟩
      intro mlen t h
      rw [hmn] at h
      cases h
    | cons w₀ W' =>
      subst hWc
      have hw₀ : isSpace w₀ = true := hWall w₀ (List.mem_cons_self _ _)
      have hmm := matchHeading_shape htk hrdec hWall hd hL'all hRtw (by simp)
      have hhl : isHeadingLine level (cs.takeWhile (fun c => c != '\n')) = true := by
        unfold isHeadingLine
        rw [h1, Bool.true_and, hld2, hLdec, List.cons_append]
        cases W' with
        | nil => exact hw₀
        | cons w₁ W'' => exact hw₀
      refine ⟨by rw [hmm, hhl]; rfl, ?_⟩
      intro mlen t h
      rw [hmm] at h
      have hm1 := ((Prod.mk.injEq _ _ _ _).mp (Option.some.inj h)).1
      rw [hlinelen, ← hm1, hLdec]
      simp [List.length_append]
      omega
  · have hmh : matchHeading level cs = none := by
      unfold matchHeading
      rw [if_neg htk]
    have hhl : isHeadingLine level (cs.takeWhile (fun c => c != '\n')) = false := by
      unfold isHeadingLine
      cases hlt : ((cs.takeWhile (fun c => c != '\n')).take level ==
          List.replicate level '#') with
      | false => rfl
      | true =>
        exfalso
        have heq := beq_iff_eq.mp hlt
        have hlen : level ≤ (cs.takeWhile (fun c => c != '\n')).length := by
          have hcon := congrArg List.length heq
          rw [List.length_take, List.length_replicate] at hcon
          omega
        have hpre : cs.takeWhile (fun c => c != '\n') =
            cs.take (cs.takeWhile (fun c => c != '\n')).length :=
          List.prefix_iff_eq_take.mp (List.takeWhile_prefix _)
        have hcs_take : cs.take level =
            (cs.takeWhile (fun c => c != '\n')).take level := by
          conv_rhs => rw [hpre]
          rw [List.take_take]
          congr 1
          omega
        refine htk ?_
        rw [hcs_take, heq]
        exact beq_self_eq_true _
    refine ⟨by rw [hmh, hhl]; rfl, ?_⟩
    intro mlen t h
    rw [hmh] at h
    cases h

theorem isHeadingLine_nil {level : Nat} (hL : 1 ≤ level) :
    isHeadingLine level [] = false := by
  cases level with
  | zero => omega
  | succ k => rfl

theorem relLineStart_cons (c : Char) (cs' : List Char) (anchor : Bool)
    (q' : Nat) :
    relLineStart cs' (c == '\n') q' ↔ relLineStart (c :: cs') anchor (q' + 1) := by
  cases q' with
  | zero =>
    show (c == '\n') = true ↔ (c :: cs')[0]? = some '\n'
    rw [List.getElem?_cons_zero]
    constructor
    · intro h
      exact congrArg some (beq_iff_eq.mp h)
    · intro h
      exact beq_iff_eq.mpr (Option.some.inj h)
  | succ k =>
    show cs'[k]? = some '\n' ↔ (c :: cs')[k + 1]? = some '\n'
    rw [List.getElem?_cons_succ]

/-- The main correspondence: under the no-bare-marker-line hypothesis, the
match start positions are exactly the line starts whose line has the claimed
heading shape. -/
theorem matchStartsAux_iff (level : Nat) (hL : 1 ≤ level) :
    ∀ (fuel : Nat) (cs : List Char) (anchor : Bool) (pos : Nat),
      cs.length ≤ fuel →
      (∀ q, relLineStart cs anchor q → isBareMarker level (lineAt cs q) = false) →
      ∀ p, p ∈ matchStartsAux level fuel cs anchor pos ↔
        ∃ q, p = pos + q ∧ relLineStart cs anchor q ∧
          isHeadingLine level (lineAt cs q) = true := by
  intro fuel
  induction fuel with
  | zero =>
    intro cs anchor pos hlen _ p
    have hnil : cs = [] := List.length_eq_zero.mp (Nat.le_zero.mp hlen)
    subst hnil
    constructor
    · intro h
      simp [matchStartsAux] at h
    · rintro ⟨q, -, -, hhead⟩
      rw [show lineAt [] q = [] from by simp [lineAt], isHeadingLine_nil hL] at hhead
      cases hhead
  | succ f ih =>
    intro cs anchor pos hlen H p
    cases cs with
    | nil =>
      constructor
      · intro h
        simp [matchStartsAux] at h
      · rintro ⟨q, -, -, hhead⟩
        rw [show lineAt [] q = [] from by simp [lineAt], isHeadingLine_nil hL] at hhead
        cases hhead
    | cons c cs' =>
      cases hm : (if anchor then matchHeading level (c :: cs') else none) with
      | none =>
        have hrw : matchStartsAux level (f + 1) (c :: cs') anchor pos =
            matchStartsAux level f cs' (c == '\n') (pos + 1) := by
          simp [matchStartsAux, hm]
        have hshift : ∀ q', (relLineStart cs' (c == '\n') q' ↔
            relLineStart (c :: cs') anchor (q' + 1)) :=
          fun q' => relLineStart_cons c cs' anchor q'
        have hlineshift : ∀ q', lineAt (c :: cs') (q' + 1) = lineAt cs' q' :=
          fun q' => rfl
        have H' : ∀ q', relLineStart cs' (c == '\n') q' →
            isBareMarker level (lineAt cs' q') = false := by
          intro q' hq'
          rw [← hlineshift q']
          exact H (q' + 1) ((hshift q').mp hq')
        have hzero : anchor = true →
            isHeadingLine level (lineAt (c :: cs') 0) = false := by
          intro ha
          subst ha
          have hmn : matchHeading level (c :: cs') = none := by simpa using hm
          have hcentral := (matchHeading_line level (c :: cs')
            (H 0 (by rfl))).1
          rw [hmn] at hcentral
          exact hcentral.symm
        rw [hrw]
        rw [ih cs' (c == '\n') (pos + 1)
          (by simp only [List.length_cons] at hlen; omega) H' p]
        constructor
        · rintro ⟨q', hp, hrel, hhead⟩
          exact ⟨q' + 1, by omega, (hshift q').mp hrel, by rw [hlineshift]; exact hhead⟩
        · rintro ⟨q, hp, hrel, hhead⟩
          cases q with
          | zero =>
            cases ha : anchor with
            | false =>
              rw [ha] at hrel
              cases hrel
            | true =>
              rw [hzero ha] at hhead
              cases hhead
          | succ q' =>
            exact ⟨q', by omega, (hshift q').mpr hrel, by rw [← hlineshift q']; exact hhead⟩
      | some pr =>
        obtain ⟨mlen, t⟩ := pr
        have ha : anchor = true := by
          cases anchor with
          | true => rfl
          | false => simp at hm
        subst ha
        have hmh : matchHeading level (c :: cs') = some (mlen, t) := by simpa using hm
        have hbare0 : isBareMarker level (lineAt (c :: cs') 0) = false := H 0 (by rfl)
        have hcentral := matchHeading_line level (c :: cs') hbare0
        have hml : mlen = (lineAt (c :: cs') 0).length := hcentral.2 mlen t hmh
        have hhead0 : isHeadingLine level (lineAt (c :: cs') 0) = true := by
          have := hcentral.1
          rw [hmh] at this
          exact this.symm
        have hm1 : 1 ≤ mlen := (matchHeading_some_facts hmh).1
        obtain ⟨m, rfl⟩ : ∃ m, mlen = m + 1 := ⟨mlen - 1, by omega⟩
        have hnoNL : ∀ k, k < m + 1 → ¬ ((c :: cs')[k]? = some '\n') := by
          intro k hk hcon
          have hpre : lineAt (c :: cs') 0 = (c :: cs').take (m + 1) := by
            rw [hml]
            exact List.prefix_iff_eq_take.mp (List.takeWhile_prefix _)
          have hgl : (lineAt (c :: cs') 0)[k]? = some '\n' := by
            rw [hpre, List.getElem?_take_of_lt hk]
            exact hcon
          have hmem : '\n' ∈ lineAt (c :: cs') 0 := List.getElem?_mem hgl
          have hneq := List.mem_takeWhile_imp
            (l := (c :: cs').drop 0) (p := fun c => c != '\n') hmem
          simp at hneq
        have hdropnl : ∀ q', (relLineStart ((c :: cs').drop (m + 1)) false q' ↔
            relLineStart (c :: cs') true ((m + 1) + q')) := by
          intro q'
          cases q' with
          | zero =>
            constructor
            · intro h
              cases h
            · intro h
              exact absurd h (hnoNL m (by omega))
          | succ k =>
            show ((c :: cs').drop (m + 1))[k]? = some '\n' ↔ _
            rw [List.getElem?_drop]
            rfl
        have hlinedrop : ∀ q',
            lineAt (c :: cs') ((m + 1) + q') = lineAt ((c :: cs').drop (m + 1)) q' := by
          intro q'
          unfold lineAt
          rw [List.drop_drop]
        have H' : ∀ q', relLineStart ((c :: cs').drop (m + 1)) false q' →
            isBareMarker level (lineAt ((c :: cs').drop (m + 1)) q') = false := by
          intro q' hq'
          rw [← hlinedrop q']
          exact H ((m + 1) + q') ((hdropnl q').mp hq')
        have hrw : matchStartsAux level (f + 1) (c :: cs') true pos =
            pos :: matchStartsAux level f ((c :: cs').drop (m + 1)) false
              (pos + (m + 1)) := by
          simp [matchStartsAux, hmh]
        have hlen' : ((c :: cs').drop (m + 1)).length ≤ f := by
          rw [List.length_drop]
          simp only [List.length_cons] at hlen ⊢
          omega
        rw [hrw]
        constructor
        · intro hp
          rcases List.mem_cons.mp hp with h | h
          · exact ⟨0, by omega, rfl, hhead0⟩
          · obtain ⟨q', hp', hrel', hhead'⟩ :=
              (ih _ false (pos + (m + 1)) hlen' H' p).mp h
            refine ⟨(m + 1) + q', by omega, (hdropnl q').mp hrel', ?_⟩
            rw [hlinedrop q']
            exact hhead'
        · rintro ⟨q, hp, hrel, hhead⟩
          by_cases hq0 : q = 0
          · subst hq0
            exact List.mem_cons.mpr (Or.inl (by omega))
          · by_cases hqm : q ≤ m + 1
            · exfalso
              obtain ⟨k, rfl⟩ : ∃ k, q = k + 1 := ⟨q - 1, by omega⟩
              exact hnoNL k (by omega) hrel
            · obtain ⟨q', rfl⟩ : ∃ q', q = (m + 1) + q' := ⟨q - (m + 1), by omega⟩
              refine List.mem_cons.mpr (Or.inr ?_)
              refine (ih _ false (pos + (m + 1)) hlen' H' p).mpr ?_
              exact ⟨q', by omega, (hdropnl q').mpr hrel,
                by rw [← hlinedrop q']; exact hhead⟩

instance relLineStartDecidable (cs : List Char) (anchor : Bool) (q : Nat) :
    Decidable (relLineStart cs anchor q) :=
  match q with
  | 0 => inferInstanceAs (Decidable (anchor = true))
  | q + 1 => inferInstanceAs (Decidable (cs[q]? = some '\n'))

instance isLineStartDecidable (cs : List Char) (q : Nat) :
    Decidable (isLineStart cs q) :=
  inferInstanceAs (Decidable (relLineStart cs true q))

/-- C7 (counterexample). In `"#\nX"` at level 1, a match starts at position 0
(the line `"#"`), because `\s+` of the pattern crosses the newline and takes
`X` from the next line as the title — yet the line `"#"` does NOT begin with
one `#` followed by whitespace and a title.  So "boundary iff the line has
the heading shape" fails as stated. -/
theorem claim_C7_cex :
    (0 ∈ matchStarts 1 "#\nX".data) ∧
    isLineStart "#\nX".data 0 ∧
    isHeadingLine 1 (lineAt "#\nX".data 0) = false :=
  ⟨by decide, rfl, by decide⟩

/-- C7 (amended). For every text in which no line consists of exactly
`level` `#` markers followed by nothing but whitespace (no "bare marker"
line — on those the pattern's `\s+` crosses the newline), and every level in
1..6: a position is a split boundary (a `finditer` match start) iff it
starts a line that begins with exactly `level` markers followed by
whitespace and a title; deeper or shallower marker runs are never
boundaries. -/
theorem claim_C7 :
    ∀ (text : String) (level : Nat), 1 ≤ level → level ≤ 6 →
      (∀ q, q ≤ text.data.length → isLineStart text.data q →
        isBareMarker level (lineAt text.data q) = false) →
      ∀ p, p ∈ matchStarts level text.data ↔
        (isLineStart text.data p ∧
          isHeadingLine level (lineAt text.data p) = true) := by
  intro text level hL _ H p
  have H' : ∀ q, relLineStart text.data true q →
      isBareMarker level (lineAt text.data q) = false := by
    intro q hq
    refine H q ?_ hq
    cases q with
    | zero => omega
    | succ k =>
      obtain ⟨hk, -⟩ := List.getElem?_eq_some.mp hq
      omega
  have hiff := matchStartsAux_iff level hL text.data.length text.data true 0
    le_rfl H' p
  constructor
  · intro h
    obtain ⟨q, hpq, hrel, hh⟩ := hiff.mp h
    obtain rfl : q = p := by omega
    exact ⟨hrel, hh⟩
  · rintro ⟨hrel, hh⟩
    exact hiff.mpr ⟨p, by omega, hrel, hh⟩

/-- C7 (witness): in `"Intro\n# A\nbody"` (no bare marker lines), position 6
is a boundary and its line `"# A"` has the heading shape. -/
theorem claim_C7_witness :
    6 ∈ matchStarts 1 "Intro\n# A\nbody".data ↔
      (isLineStart "Intro\n# A\nbody".data 6 ∧
        isHeadingLine 1 (lineAt "Intro\n# A\nbody".data 6) = true) :=
  claim_C7 "Intro\n# A\nbody" 1 (by decide) (by decide) (by decide) 6

end Doc2Md
